import Mathlib

/-!
Verification of the Maze-Runner simulation core (src/maze_runner.py).

Shallow embedding conventions:
* The Python `list[list[int]]` grid (0 = wall, 1 = open) is modelled as a total
  function `Cell → ℕ`; every grid access in the source is bounds-guarded, so the
  out-of-range behaviour of the function model is never exercised.
* Python's global `random` module is modelled by an injected stream
  `rng : ℕ → ℕ`; `random.shuffle` followed by `random.choice` over the candidate
  list is modelled as one arbitrary index pick (`rng k % length`), and
  `random.randint(1,100)` as `rng k % 100 + 1`.  Every sequence of choices the
  source can make corresponds to some `rng`, so universally quantified theorems
  cover all source behaviours.
* Actor positions are continuous; Python floats are modelled as ℚ.  The single
  irrational operation, the float square root in the enemy-velocity
  normalisation (`** 0.5`), is abstracted as an injected function
  `fsqrt : ℚ → ℚ`; no claim below depends on its value.
* Unbounded `while` loops are embedded with an explicit fuel that provably
  exceeds the number of iterations the source loop can make.
-/

namespace Maze

/-! ### Constants (source lines 38-72) -/

def SCREEN_WIDTH : ℤ := 800
def TILE : ℤ := 32
def GRID_COLS : ℤ := 22
def GRID_ROWS : ℤ := 18
def OFFSET_X : ℤ := (SCREEN_WIDTH - GRID_COLS * TILE).fdiv 2
def OFFSET_Y : ℤ := 80
def PLAYER_SPEED : ℚ := 2
def ENEMY_SPEED : ℚ := 2
def PLAYER_SIZE : ℤ := TILE - 6
def ENEMY_SIZE : ℤ := TILE - 6
def MAX_LEVEL : ℤ := 100
def START_LIVES : ℤ := 3

/-! ### Grid model -/

/-- A grid cell address `(column, row)`; Python uses `int` pairs, so ℤ × ℤ. -/
abbrev Cell := ℤ × ℤ

/-- The maze grid: cell value 0 = wall, 1 = open.  Models the Python
`list[list[int]]` (indexed `grid[y][x]`) as a total function. -/
abbrev Grid := Cell → ℕ

/-- Read `grid[c.2][c.1]`. -/
def cellAt (g : Grid) (c : Cell) : ℕ := g c

/-- Write `grid[c.2][c.1] = v`. -/
def setCell (g : Grid) (c : Cell) (v : ℕ) : Grid :=
  fun q => if q = c then v else g q

/-! ### Maze generation (source lines 135-197, `generate_maze`) -/

/-- The coarse-lattice neighbour candidates of `neighbors(cx, cy)`
(source lines 147-154), in the fixed pre-shuffle order; the shuffle is folded
into the random index pick of the carve loop. -/
def mazeNeighbors (c : Cell) : List Cell :=
  (if 1 ≤ c.1 - 2 then [(c.1 - 2, c.2)] else []) ++
  (if c.1 + 2 ≤ GRID_COLS - 2 then [(c.1 + 2, c.2)] else []) ++
  (if 1 ≤ c.2 - 2 then [(c.1, c.2 - 2)] else []) ++
  (if c.2 + 2 ≤ GRID_ROWS - 2 then [(c.1, c.2 + 2)] else [])

/-- The DFS carve loop (source lines 164-176).  Each iteration either opens the
wall cell between the stack top and a randomly chosen unvisited coarse
neighbour and pushes that neighbour, or pops.  The source loop runs until the
stack empties; the fuel given to it by `generate_maze` exceeds any possible
iteration count. -/
def carveLoop (rng : ℕ → ℕ) : ℕ → ℕ → Grid → List Cell → Grid
  | 0, _, g, _ => g
  | _ + 1, _, g, [] => g
  | f + 1, k, g, c :: st =>
    let nb := (mazeNeighbors c).filter (fun p => cellAt g p == 0)
    if nb.isEmpty then carveLoop rng f (k + 1) g st
    else
      let nxt := nb.getD (rng k % nb.length) (0, 0)
      let wall : Cell := ((c.1 + nxt.1).fdiv 2, (c.2 + nxt.2).fdiv 2)
      carveLoop rng f (k + 1) (setCell (setCell g wall 1) nxt 1) (nxt :: c :: st)

/-- `extra_block_chance = min(35, (level - 1) // 3 + 3)` (source line 180). -/
def extra_block_chance (level : ℤ) : ℤ := min 35 ((level - 1).fdiv 3 + 3)

/-- The interior cells `(rx, ry)` for `ry in range(1, h-1)`, `rx in range(1, w-1)`
in source traversal order (lines 181-182). -/
def interiorCells : List Cell :=
  (List.range 16).flatMap fun ry => (List.range 20).map fun rx =>
    (((rx : ℤ) + 1, (ry : ℤ) + 1) : Cell)

/-- One interior cell of the difficulty post-process (source lines 183-187):
skip spawn `(1,1)` and exit `(w-2,h-2)`, else re-block an open cell when
`randint(1,100) <= extra_block_chance`. -/
def reblockStep (rng : ℕ → ℕ) (chance : ℤ) (g : Grid) (ic : ℕ × Cell) : Grid :=
  if ic.2 ≠ ((1 : ℤ), (1 : ℤ)) ∧ ic.2 ≠ (GRID_COLS - 2, GRID_ROWS - 2) ∧
      cellAt g ic.2 = 1 ∧ ((rng (10000 + ic.1) % 100 : ℕ) : ℤ) + 1 ≤ chance then
    setCell g ic.2 0
  else g

/-- The difficulty post-process loop (source lines 181-187). -/
def reblock (rng : ℕ → ℕ) (chance : ℤ) (g0 : Grid) : Grid :=
  (interiorCells.enum).foldl (reblockStep rng chance) g0

/-- The border cells written by the final re-stamp loops (source lines 190-195),
in write order. -/
def borderCells : List Cell :=
  ((List.range 22).flatMap fun x => [(((x : ℤ), 0) : Cell), ((x : ℤ), GRID_ROWS - 1)]) ++
  ((List.range 18).flatMap fun y => [(((0 : ℤ), (y : ℤ)) : Cell), (GRID_COLS - 1, (y : ℤ))])

/-- Re-stamp the border ring as wall (source lines 190-195). -/
def stampBorder (g : Grid) : Grid :=
  borderCells.foldl (fun a c => setCell a c 0) g

/-- All cells wall, then `grid[1][1] = 1` (source lines 144, 157-159). -/
def initialGrid : Grid := setCell (fun _ => 0) (1, 1) 1

/-- `generate_maze(level)` (source lines 135-197): carve from `(1,1)`, apply the
difficulty post-process, re-stamp the border.  (The `carve_chance` local of the
source is computed but never used and is omitted.) -/
def generate_maze (level : ℤ) (rng : ℕ → ℕ) : Grid :=
  stampBorder (reblock rng (extra_block_chance level)
    (carveLoop rng 1000 0 initialGrid [(1, 1)]))

/-! ### Coordinate conversions (source lines 200-212) -/

/-- `grid_to_pixel` (source lines 200-203): centre pixel of a cell. -/
def grid_to_pixel (gx gy : ℤ) : ℤ × ℤ :=
  (OFFSET_X + gx * TILE + TILE.fdiv 2, OFFSET_Y + gy * TILE + TILE.fdiv 2)

/-- `pixel_to_grid` (source lines 206-212): floor-divide by the tile size, then
clamp into `[0, GRID_COLS-1] × [0, GRID_ROWS-1]`. -/
def pixel_to_grid (px py : ℚ) : Cell :=
  let gx : ℤ := ⌊(px - (OFFSET_X : ℚ)) / (TILE : ℚ)⌋
  let gy : ℤ := ⌊(py - (OFFSET_Y : ℚ)) / (TILE : ℚ)⌋
  (max 0 (min (GRID_COLS - 1) gx), max 0 (min (GRID_ROWS - 1) gy))

/-! ### BFS pathfinding (source lines 222-250, `bfs_path`) -/

/-- A cell is usable by the BFS when it is inside the grid bounds and open
(the guard on source line 238). -/
def okCell (g : Grid) (c : Cell) : Prop :=
  (0 ≤ c.1 ∧ c.1 < GRID_COLS ∧ 0 ≤ c.2 ∧ c.2 < GRID_ROWS) ∧ cellAt g c = 1

instance (g : Grid) (c : Cell) : Decidable (okCell g c) := by
  unfold okCell; infer_instance

/-- The 4-neighbourhood in the fixed source order `dirs = [(1,0),(-1,0),(0,1),(0,-1)]`
(source line 230). -/
def nbrs (c : Cell) : List Cell :=
  [(c.1 + 1, c.2), (c.1 - 1, c.2), (c.1, c.2 + 1), (c.1, c.2 - 1)]

/-- The predecessor map `came`: an insertion-ordered association list modelling
the Python dict (keys are unique because insertion is guarded by membership). -/
abbrev Came := List (Cell × Option Cell)

/-- Dict lookup `came[c]` (`none` = key absent, `some none` = key present with
value `None`). -/
def lookupCame : Came → Cell → Option (Option Cell)
  | [], _ => none
  | (k, v) :: rest, c => if c = k then some v else lookupCame rest c

/-- The keys of `came` in insertion order. -/
def keysOf (came : Came) : List Cell := came.map Prod.fst

/-- One neighbour step of the BFS inner loop (source lines 236-240): enqueue and
record the predecessor of a fresh in-bounds open neighbour. -/
def expandOne (g : Grid) (cur : Cell) (st : List Cell × Came) (n : Cell) :
    List Cell × Came :=
  if okCell g n ∧ lookupCame st.2 n = none then
    (st.1 ++ [n], st.2 ++ [(n, some cur)])
  else st

/-- Process all four neighbours of the dequeued cell. -/
def stepExpand (g : Grid) (cur : Cell) (q : List Cell) (came : Came) :
    List Cell × Came :=
  (nbrs cur).foldl (expandOne g cur) (q, came)

/-- Proof device: the cells `stepExpand` actually enqueues — the in-bounds open
neighbours of `cur` not yet in `came`. -/
def freshNbrs (g : Grid) (cur : Cell) (came : Came) : List Cell :=
  (nbrs cur).filter (fun n => decide (okCell g n ∧ lookupCame came n = none))

/-- The BFS queue loop (source lines 231-240): dequeue, stop on the goal,
otherwise expand.  Returns the final predecessor map. -/
def bfsAux (g : Grid) (goal : Cell) : ℕ → List Cell → Came → Came
  | 0, _, came => came
  | _ + 1, [], came => came
  | f + 1, cur :: q, came =>
    if cur = goal then came
    else
      let qc := stepExpand g cur q came
      bfsAux g goal f qc.1 qc.2

/-- Fuel for the BFS loop; provably larger than any possible iteration count
(the source loop dequeues at most `1 + |cells|` times). -/
def bfsFuel : ℕ := 5 * (22 * 18) + 10

/-- Path reconstruction (source lines 243-249): follow predecessors from the
goal, consing (the Python code appends then reverses).  The chain provably has
length at most `|came|`, which bounds the fuel `bfs_path` passes in. -/
def backtrack (came : Came) : ℕ → Option Cell → List Cell → List Cell
  | 0, _, acc => acc
  | _ + 1, none, acc => acc
  | f + 1, some c, acc => backtrack came f ((lookupCame came c).join) (c :: acc)

/-- `bfs_path(grid, start, goal)` (source lines 222-250). -/
def bfs_path (g : Grid) (start goal : Cell) : Option (List Cell) :=
  if start = goal then some [start]
  else
    let came := bfsAux g goal bfsFuel [start] [(start, none)]
    if (lookupCame came goal).isSome then
      some (backtrack came (came.length + 1) (some goal) [])
    else none

/-! ### Collision and movement (source lines 304-341, 369-390) -/

/-- The four inset footprint corners sampled by `can_move_to`
(source lines 377-382). -/
def corners (px py : ℚ) : List (ℚ × ℚ) :=
  [(px + 2, py + 2), (px + (PLAYER_SIZE : ℚ) - 2, py + 2),
   (px + 2, py + (PLAYER_SIZE : ℚ) - 2),
   (px + (PLAYER_SIZE : ℚ) - 2, py + (PLAYER_SIZE : ℚ) - 2)]

/-- `can_move_to` (source lines 374-390): every sampled corner must map to an
in-bounds, open cell. -/
def can_move_to (g : Grid) (px py : ℚ) : Bool :=
  (corners px py).all fun q =>
    let c := pixel_to_grid q.1 q.2
    decide (0 ≤ c.1 ∧ c.1 < GRID_COLS ∧ 0 ≤ c.2 ∧ c.2 < GRID_ROWS) &&
      decide (cellAt g c ≠ 0)

/-- Modelled from the spec (§4.3): the same corner test without the bounds
check, for comparison with `can_move_to` — a position may be rejected only
because a sampled cell is a wall. -/
def can_move_to_noBoundsCheck (g : Grid) (px py : ℚ) : Bool :=
  (corners px py).all fun q =>
    decide (cellAt g (pixel_to_grid q.1 q.2) ≠ 0)

/-- Truncation toward zero, as Python `int()` / pygame's float→int coercion. -/
def truncQ (q : ℚ) : ℤ := q.num / (q.den : ℤ)

/-- `rects_collide` (source lines 369-372): pygame `Rect.colliderect`, a strict
axis-aligned overlap test on truncated integer rectangles. -/
def rects_collide (p1 : ℚ × ℚ) (s1 : ℤ) (p2 : ℚ × ℚ) (s2 : ℤ) : Bool :=
  decide (truncQ p1.1 < truncQ p2.1 + s2) && decide (truncQ p2.1 < truncQ p1.1 + s1) &&
    decide (truncQ p1.2 < truncQ p2.2 + s2) && decide (truncQ p2.2 < truncQ p1.2 + s1)

/-- The player's axis-decoupled move (source lines 304-314): both axis checks
are made against the pre-move position, then each axis is updated
independently. -/
def movePlayerPos (g : Grid) (p v : ℚ × ℚ) : ℚ × ℚ :=
  let nx := p.1 + v.1
  let ny := p.2 + v.2
  let cmx := can_move_to g nx p.2
  let cmy := can_move_to g p.1 ny
  ((if cmx then nx else p.1), (if cmy then ny else p.2))

/-- The enemy's axis move (source lines 336-341): the X axis is resolved first
and the Y-axis check is made against the *already updated* X coordinate. -/
def moveEnemyPos (g : Grid) (p v : ℚ × ℚ) : ℚ × ℚ :=
  let nx := p.1 + v.1
  let ny := p.2 + v.2
  let x1 := if can_move_to g nx p.2 then nx else p.1
  let y1 := if can_move_to g x1 ny then ny else p.2
  (x1, y1)

/-! ### Game session state (source lines 253-296) -/

/-- The session state strings of the source. -/
inductive Mode
  | menu
  | playing
  | game_over
  | win
deriving DecidableEq

/-- The fields of the `MazeRunner` class that the simulation logic reads or
writes (UI/audio bookkeeping fields are omitted; `target_cell` is written once
and never read — the exit check compares against the literal cell). -/
structure MazeRunner where
  level : ℤ
  lives : ℤ
  state : Mode
  grid : Grid
  player_pos : ℚ × ℚ
  enemy_pos : ℚ × ℚ
  player_cell : Cell
  enemy_cell : Cell

/-- `reset_positions` (source lines 276-282). -/
def reset_positions (s : MazeRunner) : MazeRunner :=
  let pp := grid_to_pixel 1 1
  let ep := grid_to_pixel (GRID_COLS - 2) (GRID_ROWS - 2)
  { s with
    player_pos := ((pp.1 : ℚ) - ((PLAYER_SIZE.fdiv 2 : ℤ) : ℚ),
                   (pp.2 : ℚ) - ((PLAYER_SIZE.fdiv 2 : ℤ) : ℚ))
    enemy_pos := ((ep.1 : ℚ) - ((ENEMY_SIZE.fdiv 2 : ℤ) : ℚ),
                  (ep.2 : ℚ) - ((ENEMY_SIZE.fdiv 2 : ℤ) : ℚ))
    player_cell := (1, 1)
    enemy_cell := (GRID_COLS - 2, GRID_ROWS - 2) }

/-- `update_player_cell` (source lines 290-292). -/
def update_player_cell (s : MazeRunner) : MazeRunner :=
  { s with player_cell :=
      (pixel_to_grid (s.player_pos.1 + ((PLAYER_SIZE.fdiv 2 : ℤ) : ℚ))
        (s.player_pos.2 + ((PLAYER_SIZE.fdiv 2 : ℤ) : ℚ))) }

/-- `update_enemy_cell` (source lines 294-296). -/
def update_enemy_cell (s : MazeRunner) : MazeRunner :=
  { s with enemy_cell :=
      (pixel_to_grid (s.enemy_pos.1 + ((ENEMY_SIZE.fdiv 2 : ℤ) : ℚ))
        (s.enemy_pos.2 + ((ENEMY_SIZE.fdiv 2 : ℤ) : ℚ))) }

/-- The movement phase of one `update` tick (source lines 304-341): player axis
move (a `Some` input models any Python tuple, which is truthy even when zero;
`none` models `None`), cell re-derivation for both actors, then the enemy's
pursuit move along the freshly computed BFS path. -/
def tickMove (s : MazeRunner) (input : Option (ℚ × ℚ)) (fsqrt : ℚ → ℚ) :
    MazeRunner :=
  let s1 := match input with
    | none => s
    | some v => { s with player_pos := movePlayerPos s.grid s.player_pos v }
  let s2 := update_enemy_cell (update_player_cell s1)
  match bfs_path s2.grid s2.enemy_cell s2.player_cell with
  | none => s2
  | some p =>
    if 2 ≤ p.length then
      let nxt := p.getD 1 (0, 0)
      let npix := grid_to_pixel nxt.1 nxt.2
      let ecx := s2.enemy_pos.1 + ((ENEMY_SIZE.fdiv 2 : ℤ) : ℚ)
      let ecy := s2.enemy_pos.2 + ((ENEMY_SIZE.fdiv 2 : ℤ) : ℚ)
      let dirx := (npix.1 : ℚ) - ecx
      let diry := (npix.2 : ℚ) - ecy
      if dirx ≠ 0 ∨ diry ≠ 0 then
        let dist := max 1 (fsqrt (dirx ^ 2 + diry ^ 2))
        { s2 with enemy_pos :=
            (moveEnemyPos s2.grid s2.enemy_pos
              (ENEMY_SPEED * dirx / dist, ENEMY_SPEED * diry / dist)) }
      else s2
    else s2

/-- The resolution phase of one `update` tick (source lines 343-367): first the
catch check, then — unconditionally after it — the exit check. -/
def tickResolve (s : MazeRunner) (rng : ℕ → ℕ) : MazeRunner :=
  let s4 :=
    if rects_collide s.player_pos PLAYER_SIZE s.enemy_pos ENEMY_SIZE then
      let l2 := s.lives - 1
      if l2 ≤ 0 then { s with lives := l2, state := Mode.game_over }
      else reset_positions { s with lives := l2 }
    else s
  if s4.player_cell = (GRID_COLS - 2, GRID_ROWS - 2) then
    if s4.level < MAX_LEVEL then
      reset_positions
        { s4 with level := s4.level + 1, grid := generate_maze (s4.level + 1) rng }
    else { s4 with state := Mode.win }
  else s4

/-- `MazeRunner.update` (source lines 298-367): a no-op unless playing, else
the movement phase followed by the resolution phase. -/
def update (s : MazeRunner) (input : Option (ℚ × ℚ)) (fsqrt : ℚ → ℚ)
    (rng : ℕ → ℕ) : MazeRunner :=
  if s.state = Mode.playing then tickResolve (tickMove s input fsqrt) rng else s

/-! ### Menu transitions (source lines 459-490, `main_loop` event handlers) -/

/-- The START-button handler (source lines 460-467): from the menu, enter
playing at level 1 with full lives and a fresh level-1 grid. -/
def onStartClick (s : MazeRunner) (rng : ℕ → ℕ) : MazeRunner :=
  if s.state = Mode.menu then
    reset_positions
      { s with state := Mode.playing, level := 1, lives := START_LIVES,
               grid := generate_maze 1 rng }
  else s

/-- The RESTART-button handler in the game-over screen (source lines 472-476):
only the state changes, back to the menu. -/
def onRestartClick (s : MazeRunner) : MazeRunner :=
  if s.state = Mode.game_over then { s with state := Mode.menu } else s

/-- The click handler of the win screen (source lines 487-490): only the state
changes, back to the menu. -/
def onWinClick (s : MazeRunner) : MazeRunner :=
  if s.state = Mode.win then { s with state := Mode.menu } else s

/-! ### Spec-side comparison definitions -/

/-- Modelled from the spec (§4.4): axis-decoupled motion where *both* axis
checks are made against the pre-move position. -/
def specIndepResolve (g : Grid) (p v : ℚ × ℚ) : ℚ × ℚ :=
  ((if can_move_to g (p.1 + v.1) p.2 then p.1 + v.1 else p.1),
   (if can_move_to g p.1 (p.2 + v.2) then p.2 + v.2 else p.2))

/-! ### Concrete instances used by witnesses and counterexamples -/

/-- A concrete grid for the C4 counterexample: cells `(1,1)`, `(2,1)`, `(1,2)`
open, everything else wall — a corner where moving diagonally down-right from
`(1,1)` is blocked only at `(2,2)`. -/
def c4grid : Grid := fun c =>
  if c = ((1 : ℤ), (1 : ℤ)) ∨ c = (2, 1) ∨ c = (1, 2) then 1 else 0

/-- A shared trivial random stream for concrete instances. -/
def zeroRng : ℕ → ℕ := fun _ => 0

/-- A tiny grid with exactly the cells `(1,1)` and `(2,1)` open, for the C7
witness. -/
def c7grid : Grid := fun c =>
  if c = ((1 : ℤ), (1 : ℤ)) ∨ c = (2, 1) then 1 else 0

/-- A game-over session at level 7 with 0 lives. -/
def menuCexS : MazeRunner :=
  { level := 7, lives := 0, state := Mode.game_over, grid := fun _ => 0,
    player_pos := (83, 115), enemy_pos := (691, 595),
    player_cell := (1, 1), enemy_cell := (20, 16) }

/-- A menu session with stale level/lives values, for the C5 witness. -/
def menuWitS : MazeRunner :=
  { level := 9, lives := 2, state := Mode.menu, grid := fun _ => 0,
    player_pos := (83, 115), enemy_pos := (691, 595),
    player_cell := (1, 1), enemy_cell := (20, 16) }

/-- A playing session with one life and both actors at the exit-cell centre:
the catch and the exit condition hold in the same tick. -/
def tickCexS : MazeRunner :=
  { level := 1, lives := 1, state := Mode.playing, grid := fun _ => 0,
    player_pos := (691, 595), enemy_pos := (691, 595),
    player_cell := (1, 1), enemy_cell := (20, 16) }

/-- Like `tickCexS` but at level 5, for the C6 counterexample. -/
def tickCex6S : MazeRunner :=
  { level := 5, lives := 1, state := Mode.playing, grid := fun _ => 0,
    player_pos := (691, 595), enemy_pos := (691, 595),
    player_cell := (1, 1), enemy_cell := (20, 16) }

/-- Like `tickCexS` but with two lives, for the C2 witness. -/
def tickWit2S : MazeRunner :=
  { level := 1, lives := 2, state := Mode.playing, grid := fun _ => 0,
    player_pos := (691, 595), enemy_pos := (691, 595),
    player_cell := (1, 1), enemy_cell := (20, 16) }

/-- A playing session with three lives and both actors at the spawn centre
(overlap away from the exit), for the C6 witness. -/
def tickWit6S : MazeRunner :=
  { level := 3, lives := 3, state := Mode.playing, grid := fun _ => 0,
    player_pos := (83, 115), enemy_pos := (83, 115),
    player_cell := (1, 1), enemy_cell := (20, 16) }

/-! ### Verification-side notions for the BFS correctness proof -/

/-- Reachability from `start` in exactly `n` steps, each step moving to a
4-adjacent in-bounds open cell (the start itself need not be open). -/
inductive ReachN (g : Grid) (start : Cell) : ℕ → Cell → Prop
  | refl : ReachN g start 0 start
  | step {n : ℕ} {c c2 : Cell} :
      ReachN g start n c → c2 ∈ nbrs c → okCell g c2 → ReachN g start (n + 1) c2

/-- The path notion of the spec: a nonempty cell sequence from `s` to `gl`,
consecutive cells 4-adjacent, every cell in bounds and open. -/
def isValidPath (g : Grid) (s gl : Cell) (l : List Cell) : Prop :=
  l.head? = some s ∧ l.getLast? = some gl ∧ (∀ c ∈ l, okCell g c) ∧
  l.Chain' (fun a b => b ∈ nbrs a)

/-- The invariant of the BFS loop, with `d` a ghost assignment of discovery
distances: `came` is a predecessor tree rooted at `start` whose every key was
discovered at its exact graph distance, and the queue is sorted by distance and
spans at most two consecutive levels. -/
structure BfsInv (g : Grid) (start : Cell) (d : Cell → ℕ) (q : List Cell)
    (came : Came) : Prop where
  lk_start : lookupCame came start = some none
  d_start : d start = 0
  tree : ∀ k p, (k, p) ∈ came → k ≠ start →
    ∃ pc, p = some pc ∧ pc ∈ keysOf came ∧ k ∈ nbrs pc ∧ okCell g k ∧ d k = d pc + 1
  nodup : (keysOf came).Nodup
  reach : ∀ k ∈ keysOf came, ReachN g start (d k) k
  mind : ∀ k ∈ keysOf came, ∀ m, ReachN g start m k → d k ≤ m
  q_sub : ∀ x ∈ q, x ∈ keysOf came
  q_nodup : q.Nodup
  q_sorted : q.Pairwise (fun a b => d a ≤ d b)
  q_band : ∀ a ∈ q, ∀ b ∈ q, d a ≤ d b + 1
  closed : ∀ u ∈ keysOf came, u ∉ q → ∀ n ∈ nbrs u, okCell g n → n ∈ keysOf came

/-- What holds of the predecessor map when the BFS loop returns: the tree and
distance properties, and either the goal was found or the key set is closed
under taking in-bounds open neighbours. -/
structure BfsDone (g : Grid) (start goal : Cell) (d : Cell → ℕ) (came : Came) :
    Prop where
  lk_start : lookupCame came start = some none
  d_start : d start = 0
  tree : ∀ k p, (k, p) ∈ came → k ≠ start →
    ∃ pc, p = some pc ∧ pc ∈ keysOf came ∧ k ∈ nbrs pc ∧ okCell g k ∧ d k = d pc + 1
  nodup : (keysOf came).Nodup
  reach : ∀ k ∈ keysOf came, ReachN g start (d k) k
  mind : ∀ k ∈ keysOf came, ∀ m, ReachN g start m k → d k ≤ m
  done : goal ∈ keysOf came ∨
    ∀ u ∈ keysOf came, ∀ n ∈ nbrs u, okCell g n → n ∈ keysOf came

/-! ### Small evaluation lemmas for the integer constants -/

lemma OFFSET_X_val : OFFSET_X = 48 := by decide

lemma TILE_half : TILE.fdiv 2 = 16 := by decide

lemma PLAYER_SIZE_half : PLAYER_SIZE.fdiv 2 = 13 := by decide

lemma ENEMY_SIZE_half : ENEMY_SIZE.fdiv 2 = 13 := by decide

lemma grid_to_pixel_spawn : grid_to_pixel 1 1 = (96, 128) := by decide

lemma grid_to_pixel_exit :
    grid_to_pixel (GRID_COLS - 2) (GRID_ROWS - 2) = (704, 608) := by decide

/-- `reset_positions` in explicit numerals. -/
lemma reset_positions_eq (s : MazeRunner) :
    reset_positions s =
      { s with player_pos := ((83 : ℚ), (115 : ℚ)),
               enemy_pos := ((691 : ℚ), (595 : ℚ)),
               player_cell := (1, 1),
               enemy_cell := ((20 : ℤ), (16 : ℤ)) } := by
  simp only [reset_positions, grid_to_pixel_spawn, grid_to_pixel_exit,
    PLAYER_SIZE_half, ENEMY_SIZE_half]
  norm_num [GRID_COLS, GRID_ROWS]

/-! ### C8: the reblocking probability -/

lemma extra_block_chance_nonneg_part {L : ℤ} (h : 1 ≤ L) : 0 ≤ (L - 1).fdiv 3 := by
  rw [Int.fdiv_eq_ediv _ (by norm_num)]
  omega

/-- C8: the per-cell reblocking chance used by `generate_maze` equals
`min(35%, 3% + 1%·⌊(L−1)/3⌋)`: the integer chance (out of 100) is
`min 35 (3 + (L-1)//3)`, exactly `extra_block_chance L` of the 100 equiprobable
`randint(1,100)` outcomes trigger a reblock, the resulting probability equals
the spec formula, and the chance is monotone from level `L` to `L+3` and never
exceeds 35. -/
theorem reblock_chance_correct (L : ℤ) (h : 1 ≤ L) :
    extra_block_chance L = min 35 (3 + (L - 1).fdiv 3) ∧
    (((Finset.Icc (1 : ℤ) 100).filter (fun r => r ≤ extra_block_chance L)).card : ℤ) =
      extra_block_chance L ∧
    (extra_block_chance L : ℚ) / 100 =
      min (35 / 100 : ℚ) (3 / 100 + (1 / 100) * (⌊(((L : ℚ) - 1) / 3 : ℚ)⌋ : ℚ)) ∧
    extra_block_chance L ≤ extra_block_chance (L + 3) ∧
    extra_block_chance L ≤ 35 := by
  have hfl : (⌊(((L : ℚ) - 1) / 3 : ℚ)⌋ : ℤ) = (L - 1).fdiv 3 := by
    have h1 : ((L : ℚ) - 1) = ((L - 1 : ℤ) : ℚ) := by push_cast; ring
    have h2 : (3 : ℚ) = ((3 : ℕ) : ℚ) := by norm_num
    rw [h1, h2, Rat.floor_intCast_div_natCast, Int.fdiv_eq_ediv _ (by norm_num)]
    norm_num
  have hnn : 0 ≤ (L - 1).fdiv 3 := extra_block_chance_nonneg_part h
  have hlo : 3 ≤ extra_block_chance L := by
    unfold extra_block_chance; omega
  have hhi : extra_block_chance L ≤ 35 := min_le_left _ _
  refine ⟨by unfold extra_block_chance; omega, ?_, ?_, ?_, hhi⟩
  · have hset : (Finset.Icc (1 : ℤ) 100).filter (fun r => r ≤ extra_block_chance L) =
        Finset.Icc (1 : ℤ) (extra_block_chance L) := by
      ext r
      simp only [Finset.mem_filter, Finset.mem_Icc]
      omega
    rw [hset, Int.card_Icc]
    omega
  · have hch : extra_block_chance L = min 35 ((L - 1).fdiv 3 + 3) := rfl
    rw [hch]
    push_cast [Int.cast_min]
    rw [hfl]
    generalize (((L - 1).fdiv 3 : ℤ) : ℚ) = x
    rcases le_total (35 : ℚ) (x + 3) with hc | hc
    · rw [min_eq_left hc, min_eq_left (by linarith)]
    · rw [min_eq_right hc, min_eq_right (by linarith)]
      ring
  · unfold extra_block_chance
    rw [Int.fdiv_eq_ediv _ (by norm_num), Int.fdiv_eq_ediv _ (by norm_num)]
    have : (L - 1) / 3 ≤ (L + 3 - 1) / 3 := by omega
    omega

/-- Witness for C8 at level 7: the chance is 5 of 100. -/
theorem reblock_chance_correct_witness :
    (1 : ℤ) ≤ 7 ∧ extra_block_chance 7 = min 35 (3 + ((7 : ℤ) - 1).fdiv 3) :=
  ⟨by norm_num, (reblock_chance_correct 7 (by norm_num)).1⟩

/-! ### C10: the bounds test in `can_move_to` is redundant -/

lemma pixel_to_grid_inBounds (px py : ℚ) :
    0 ≤ (pixel_to_grid px py).1 ∧ (pixel_to_grid px py).1 < GRID_COLS ∧
    0 ≤ (pixel_to_grid px py).2 ∧ (pixel_to_grid px py).2 < GRID_ROWS := by
  unfold pixel_to_grid GRID_COLS GRID_ROWS
  refine ⟨le_max_left _ _, ?_, le_max_left _ _, ?_⟩
  · exact max_lt (by norm_num) (lt_of_le_of_lt (min_le_left _ _) (by norm_num [GRID_COLS]))
  · exact max_lt (by norm_num) (lt_of_le_of_lt (min_le_left _ _) (by norm_num [GRID_ROWS]))

/-- C10: `pixel_to_grid` clamps every sampled corner into
`[0, GRID_COLS-1] × [0, GRID_ROWS-1]`, so the out-of-bounds rejection branch of
`can_move_to` never fires: `can_move_to` coincides with the same test with the
bounds check removed, and a position is rejected only because a sampled cell is
a wall. -/
theorem can_move_bounds_redundant :
    (∀ px py : ℚ, 0 ≤ (pixel_to_grid px py).1 ∧ (pixel_to_grid px py).1 < GRID_COLS ∧
      0 ≤ (pixel_to_grid px py).2 ∧ (pixel_to_grid px py).2 < GRID_ROWS) ∧
    (∀ (g : Grid) (px py : ℚ), can_move_to g px py = can_move_to_noBoundsCheck g px py) := by
  refine ⟨pixel_to_grid_inBounds, fun g px py => ?_⟩
  have hb : ∀ qx qy : ℚ,
      decide (0 ≤ (pixel_to_grid qx qy).1 ∧ (pixel_to_grid qx qy).1 < GRID_COLS ∧
        0 ≤ (pixel_to_grid qx qy).2 ∧ (pixel_to_grid qx qy).2 < GRID_ROWS) = true :=
    fun qx qy => decide_eq_true (pixel_to_grid_inBounds qx qy)
  simp only [can_move_to, can_move_to_noBoundsCheck, corners, List.all_cons,
    List.all_nil, hb, Bool.true_and]

/-! ### C4: axis-decoupled motion resolution -/

lemma c4grid_move_right : can_move_to c4grid 115 115 = true := by
  simp only [can_move_to, corners, List.all_cons, List.all_nil, pixel_to_grid,
    OFFSET_X_val, OFFSET_Y, TILE, PLAYER_SIZE]
  norm_num [GRID_COLS, GRID_ROWS, cellAt, c4grid, Prod.ext_iff]

lemma c4grid_move_diag : can_move_to c4grid 115 147 = false := by
  simp only [can_move_to, corners, List.all_cons, List.all_nil, pixel_to_grid,
    OFFSET_X_val, OFFSET_Y, TILE, PLAYER_SIZE]
  norm_num [GRID_COLS, GRID_ROWS, cellAt, c4grid, Prod.ext_iff]

lemma c4grid_move_down : can_move_to c4grid 83 147 = true := by
  simp only [can_move_to, corners, List.all_cons, List.all_nil, pixel_to_grid,
    OFFSET_X_val, OFFSET_Y, TILE, PLAYER_SIZE]
  norm_num [GRID_COLS, GRID_ROWS, cellAt, c4grid, Prod.ext_iff]

lemma c4grid_move_left : can_move_to c4grid 51 115 = false := by
  simp only [can_move_to, corners, List.all_cons, List.all_nil, pixel_to_grid,
    OFFSET_X_val, OFFSET_Y, TILE, PLAYER_SIZE]
  norm_num [GRID_COLS, GRID_ROWS, cellAt, c4grid, Prod.ext_iff]

/-- C4 counterexample: the adversary's axis resolution is *not* independent of
axis order against the pre-move position.  From position `(83,115)` with
velocity `(32,32)` on `c4grid`, the X move succeeds and the Y move is then
tested against the updated X and rejected, giving `(115,115)`, while
pre-move-position resolution gives `(115,147)` — so the claim's "for every
actor" fails for the adversary. -/
theorem enemy_axis_not_independent_cex :
    moveEnemyPos c4grid (83, 115) (32, 32) = (115, 115) ∧
    specIndepResolve c4grid (83, 115) (32, 32) = (115, 147) ∧
    moveEnemyPos c4grid (83, 115) (32, 32) ≠ specIndepResolve c4grid (83, 115) (32, 32) := by
  have e1 : (83 : ℚ) + 32 = 115 := by norm_num
  have e2 : (115 : ℚ) + 32 = 147 := by norm_num
  have h1 : moveEnemyPos c4grid (83, 115) (32, 32) = (115, 115) := by
    simp only [moveEnemyPos, e1, e2, c4grid_move_right, c4grid_move_diag, if_true,
      Bool.false_eq_true, if_false]
  have h2 : specIndepResolve c4grid (83, 115) (32, 32) = (115, 147) := by
    simp only [specIndepResolve, e1, e2, c4grid_move_right, c4grid_move_down, if_true]
  refine ⟨h1, h2, ?_⟩
  rw [h1, h2]
  intro hx
  exact absurd (congrArg Prod.snd hx) (by norm_num)

/-- C4 amended: the player resolves both axes against the pre-move position;
the adversary resolves X against the pre-move position but tests Y against the
X-resolved position; in both cases a blocked axis leaves its coordinate
unchanged, and a diagonal move into a wall blocking only the X axis still moves
the Y axis (the wall slide). -/
theorem axis_resolution_amended (g : Grid) (p v : ℚ × ℚ) :
    movePlayerPos g p v = specIndepResolve g p v ∧
    (can_move_to g (p.1 + v.1) p.2 = false →
      movePlayerPos g p v =
        (p.1, if can_move_to g p.1 (p.2 + v.2) then p.2 + v.2 else p.2) ∧
      moveEnemyPos g p v =
        (p.1, if can_move_to g p.1 (p.2 + v.2) then p.2 + v.2 else p.2)) ∧
    (can_move_to g (p.1 + v.1) p.2 = true →
      moveEnemyPos g p v =
        (p.1 + v.1, if can_move_to g (p.1 + v.1) (p.2 + v.2) then p.2 + v.2 else p.2)) := by
  refine ⟨rfl, fun hb => ?_, fun hb => ?_⟩
  · constructor
    · simp only [movePlayerPos, hb, Bool.false_eq_true, if_false]
    · simp only [moveEnemyPos, hb, Bool.false_eq_true, if_false]
  · simp only [moveEnemyPos, hb, if_true]

/-- Witness for C4 amended: sliding along the wall at `(0,·)` — X is blocked,
Y still moves, for both resolution orders. -/
theorem axis_resolution_amended_witness :
    movePlayerPos c4grid (83, 115) (-32, 32) = (83, 147) ∧
    moveEnemyPos c4grid (83, 115) (-32, 32) = (83, 147) := by
  have hx : can_move_to c4grid ((83 : ℚ) + -32) 115 = false := by
    rw [show (83 : ℚ) + -32 = 51 by norm_num]
    exact c4grid_move_left
  obtain ⟨h1, h2⟩ := (axis_resolution_amended c4grid (83, 115) (-32, 32)).2.1 hx
  rw [show ((115 : ℚ) + 32) = 147 by norm_num] at h1 h2
  rw [h1, h2, c4grid_move_down]
  simp

/-! ### C5: menu transitions -/

/-- C5 counterexample: the RESTART transition from GAME_OVER to MENU leaves the
level at 7 and the lives at 0 — it does not reset them as the claim states. -/
theorem menu_return_no_reset_cex :
    (onRestartClick menuCexS).state = Mode.menu ∧
    (onRestartClick menuCexS).level = 7 ∧
    (onRestartClick menuCexS).lives = 0 ∧
    ¬((onRestartClick menuCexS).level = 1 ∧
      (onRestartClick menuCexS).lives = START_LIVES) := by
  refine ⟨rfl, rfl, rfl, ?_⟩
  intro hx
  exact absurd hx.1 (by decide)

/-- C5 amended: returning to MENU from GAME_OVER or WIN changes only the
session state; level and lives keep their old values until the START transition
MENU→PLAYING, which resets level to 1 and lives to 3, regenerates a fresh
level-1 grid, and puts both actors at their spawn positions — so every re-entry
into PLAYING starts a fresh level-1 run. -/
theorem menu_transitions_amended (s : MazeRunner) (rng : ℕ → ℕ) :
    (s.state = Mode.game_over → onRestartClick s = { s with state := Mode.menu }) ∧
    (s.state = Mode.win → onWinClick s = { s with state := Mode.menu }) ∧
    (s.state = Mode.menu →
      (onStartClick s rng).state = Mode.playing ∧
      (onStartClick s rng).level = 1 ∧
      (onStartClick s rng).lives = START_LIVES ∧
      (onStartClick s rng).grid = generate_maze 1 rng ∧
      (onStartClick s rng).player_pos = ((83 : ℚ), 115) ∧
      (onStartClick s rng).enemy_pos = ((691 : ℚ), 595) ∧
      (onStartClick s rng).player_cell = (1, 1) ∧
      (onStartClick s rng).enemy_cell = ((20 : ℤ), 16)) := by
  refine ⟨fun h => by simp [onRestartClick, h], fun h => by simp [onWinClick, h],
    fun h => ?_⟩
  simp [onStartClick, h, reset_positions_eq]

/-- Witness for C5 amended: starting from the menu resets level, lives, state. -/
theorem menu_transitions_amended_witness :
    (onStartClick menuWitS zeroRng).state = Mode.playing ∧
    (onStartClick menuWitS zeroRng).level = 1 ∧
    (onStartClick menuWitS zeroRng).lives = START_LIVES :=
  have h := (menu_transitions_amended menuWitS zeroRng).2.2 rfl
  ⟨h.1, h.2.1, h.2.2.1⟩

/-! ### Generation invariants (C1, C9) -/

lemma cellAt_setCell_self (g : Grid) (c : Cell) (v : ℕ) :
    cellAt (setCell g c v) c = v := by
  simp [cellAt, setCell]

lemma cellAt_setCell_ne (g : Grid) (c q : Cell) (v : ℕ) (h : q ≠ c) :
    cellAt (setCell g c v) q = cellAt g q := by
  simp [cellAt, setCell, h]

lemma cellAt_setCell_one (g : Grid) (c q : Cell) (h : cellAt g q = 1) :
    cellAt (setCell g c 1) q = 1 := by
  unfold cellAt setCell
  split
  · rfl
  · exact h

lemma mem_mazeNeighbors {p c : Cell} (h : p ∈ mazeNeighbors c) :
    (p.2 = c.2 ∧ (p.1 = c.1 - 2 ∨ p.1 = c.1 + 2)) ∨
    (p.1 = c.1 ∧ (p.2 = c.2 - 2 ∨ p.2 = c.2 + 2)) := by
  unfold mazeNeighbors at h
  have h4 : p = (c.1 - 2, c.2) ∨ p = (c.1 + 2, c.2) ∨
      p = (c.1, c.2 - 2) ∨ p = (c.1, c.2 + 2) := by
    split_ifs at h <;> simp_all [List.mem_append] <;> tauto
  rcases h4 with rfl | rfl | rfl | rfl
  · exact Or.inl ⟨rfl, Or.inl rfl⟩
  · exact Or.inl ⟨rfl, Or.inr rfl⟩
  · exact Or.inr ⟨rfl, Or.inl rfl⟩
  · exact Or.inr ⟨rfl, Or.inr rfl⟩

/-- Carve-loop invariant: the stack holds only odd/odd cells, and every cell
with both coordinates even stays a wall — carving only opens coarse cells (both
coordinates odd) and the walls between them (exactly one coordinate odd). -/
lemma carveLoop_bothEven (rng : ℕ → ℕ) (f : ℕ) :
    ∀ (k : ℕ) (g : Grid) (st : List Cell),
      (∀ c ∈ st, c.1 % 2 = 1 ∧ c.2 % 2 = 1) →
      (∀ c : Cell, c.1 % 2 = 0 → c.2 % 2 = 0 → cellAt g c = 0) →
      ∀ c : Cell, c.1 % 2 = 0 → c.2 % 2 = 0 →
        cellAt (carveLoop rng f k g st) c = 0 := by
  induction f with
  | zero => intro k g st _ hg c hc1 hc2; exact hg c hc1 hc2
  | succ f ih =>
    intro k g st hst hg c hc1 hc2
    cases st with
    | nil => exact hg c hc1 hc2
    | cons c0 st =>
      rw [carveLoop]
      by_cases hnb : ((mazeNeighbors c0).filter (fun p => cellAt g p == 0)).isEmpty = true
      · rw [if_pos hnb]
        exact ih (k + 1) g st (fun d hd => hst d (List.mem_cons_of_mem _ hd)) hg c hc1 hc2
      · rw [if_neg hnb]
        set nb := (mazeNeighbors c0).filter (fun p => cellAt g p == 0) with hnbdef
        have hne : nb ≠ [] := fun he => by simp [he] at hnb
        have hlen : 0 < nb.length := List.length_pos.2 hne
        have hmem : nb.getD (rng k % nb.length) (0, 0) ∈ nb := by
          rw [List.getD_eq_getElem _ _ (Nat.mod_lt _ hlen)]
          exact List.getElem_mem _
        have hmemN : nb.getD (rng k % nb.length) (0, 0) ∈ mazeNeighbors c0 :=
          (List.mem_filter.1 hmem).1
        set nxt := nb.getD (rng k % nb.length) (0, 0) with hnxtdef
        have hc0 := hst c0 (List.mem_cons_self _ _)
        have hnchar := mem_mazeNeighbors hmemN
        have hnxt_odd : nxt.1 % 2 = 1 ∧ nxt.2 % 2 = 1 := by
          rcases hnchar with ⟨h1, h2 | h2⟩ | ⟨h1, h2 | h2⟩ <;> constructor <;> omega
        have hwall : ((c0.1 + nxt.1).fdiv 2) % 2 = 1 ∨ ((c0.2 + nxt.2).fdiv 2) % 2 = 1 := by
          rw [Int.fdiv_eq_ediv _ (by norm_num), Int.fdiv_eq_ediv _ (by norm_num)]
          rcases hnchar with ⟨h1, h2 | h2⟩ | ⟨h1, h2 | h2⟩ <;> omega
        apply ih (k + 1) _ _ ?_ ?_ c hc1 hc2
        · intro d hd
          rcases List.mem_cons.1 hd with rfl | hd2
          · exact hnxt_odd
          · exact hst d hd2
        · intro d hd1 hd2
          have hdnxt : d ≠ nxt := by
            intro he
            rw [he] at hd1
            omega
          have hdwall : d ≠ ((c0.1 + nxt.1).fdiv 2, (c0.2 + nxt.2).fdiv 2) := by
            intro he
            rcases hwall with hw | hw
            · rw [he] at hd1; simp at hd1; omega
            · rw [he] at hd2; simp at hd2; omega
          rw [cellAt_setCell_ne _ _ _ _ hdnxt, cellAt_setCell_ne _ _ _ _ hdwall]
          exact hg d hd1 hd2

/-- The carve loop never closes a cell: an open cell stays open. -/
lemma carveLoop_keeps_open (rng : ℕ → ℕ) (f : ℕ) :
    ∀ (k : ℕ) (g : Grid) (st : List Cell), cellAt g (1, 1) = 1 →
      cellAt (carveLoop rng f k g st) (1, 1) = 1 := by
  induction f with
  | zero => intro k g st h; exact h
  | succ f ih =>
    intro k g st h
    cases st with
    | nil => exact h
    | cons c0 st =>
      rw [carveLoop]
      by_cases hnb : ((mazeNeighbors c0).filter (fun p => cellAt g p == 0)).isEmpty = true
      · rw [if_pos hnb]
        exact ih _ _ _ h
      · rw [if_neg hnb]
        exact ih _ _ _ (cellAt_setCell_one _ _ _ (cellAt_setCell_one _ _ _ h))

lemma reblockStep_keeps_zero (rng : ℕ → ℕ) (ch : ℤ) (g : Grid) (ic : ℕ × Cell)
    (c : Cell) (h : cellAt g c = 0) : cellAt (reblockStep rng ch g ic) c = 0 := by
  unfold reblockStep
  split
  · by_cases hc : c = ic.2
    · rw [hc, cellAt_setCell_self]
    · rw [cellAt_setCell_ne _ _ _ _ hc]; exact h
  · exact h

lemma reblockStep_spawn (rng : ℕ → ℕ) (ch : ℤ) (g : Grid) (ic : ℕ × Cell) :
    cellAt (reblockStep rng ch g ic) (1, 1) = cellAt g (1, 1) := by
  unfold reblockStep
  split
  · next hcond => exact cellAt_setCell_ne _ _ _ _ (Ne.symm hcond.1)
  · rfl

lemma reblock_keeps_zero (rng : ℕ → ℕ) (ch : ℤ) (c : Cell) :
    ∀ (l : List (ℕ × Cell)) (g : Grid), cellAt g c = 0 →
      cellAt (l.foldl (reblockStep rng ch) g) c = 0 := by
  intro l
  induction l with
  | nil => intro g h; exact h
  | cons ic l ih =>
    intro g h
    exact ih _ (reblockStep_keeps_zero _ _ _ _ _ h)

lemma reblock_spawn (rng : ℕ → ℕ) (ch : ℤ) :
    ∀ (l : List (ℕ × Cell)) (g : Grid),
      cellAt (l.foldl (reblockStep rng ch) g) (1, 1) = cellAt g (1, 1) := by
  intro l
  induction l with
  | nil => intro g; rfl
  | cons ic l ih =>
    intro g
    rw [List.foldl_cons, ih, reblockStep_spawn]

lemma foldl_setZero_preserve (c : Cell) :
    ∀ (l : List Cell) (g : Grid), cellAt g c = 0 →
      cellAt (l.foldl (fun a x => setCell a x 0) g) c = 0 := by
  intro l
  induction l with
  | nil => intro g h; exact h
  | cons x l ih =>
    intro g h
    apply ih
    by_cases hc : c = x
    · rw [hc, cellAt_setCell_self]
    · rw [cellAt_setCell_ne _ _ _ _ hc]; exact h

lemma foldl_setZero_mem (c : Cell) :
    ∀ (l : List Cell) (g : Grid), c ∈ l →
      cellAt (l.foldl (fun a x => setCell a x 0) g) c = 0 := by
  intro l
  induction l with
  | nil => intro g h; exact absurd h (List.not_mem_nil _)
  | cons x l ih =>
    intro g h
    rw [List.foldl_cons]
    rcases List.mem_cons.1 h with rfl | h2
    · exact foldl_setZero_preserve _ _ _ (cellAt_setCell_self _ _ _)
    · exact ih _ h2

lemma foldl_setZero_not_mem (c : Cell) :
    ∀ (l : List Cell) (g : Grid), c ∉ l →
      cellAt (l.foldl (fun a x => setCell a x 0) g) c = cellAt g c := by
  intro l
  induction l with
  | nil => intro g _; rfl
  | cons x l ih =>
    intro g h
    rw [List.foldl_cons, ih (setCell g x 0) (fun h2 => h (List.mem_cons_of_mem _ h2))]
    exact cellAt_setCell_ne _ _ _ _
      (fun h2 => h (by rw [h2]; exact List.mem_cons_self _ _))

lemma mem_borderCells {c : Cell} :
    c ∈ borderCells ↔
      ((c.2 = 0 ∨ c.2 = GRID_ROWS - 1) ∧ 0 ≤ c.1 ∧ c.1 < GRID_COLS) ∨
      ((c.1 = 0 ∨ c.1 = GRID_COLS - 1) ∧ 0 ≤ c.2 ∧ c.2 < GRID_ROWS) := by
  unfold borderCells GRID_COLS GRID_ROWS
  simp only [List.mem_append, List.mem_flatMap, List.mem_range, List.mem_cons,
    List.not_mem_nil, or_false, Prod.mk.injEq]
  constructor
  · rintro (⟨x, hx, rfl | rfl⟩ | ⟨y, hy, rfl | rfl⟩) <;> simp <;> omega
  · intro h
    rcases h with ⟨hy, hx0, hx1⟩ | ⟨hx, hy0, hy1⟩
    · refine Or.inl ⟨c.1.toNat, by omega, ?_⟩
      rcases hy with hy | hy
      · exact Or.inl (Prod.ext_iff.2 ⟨by simp; omega, by simp; omega⟩)
      · exact Or.inr (Prod.ext_iff.2 ⟨by simp; omega, by simp; omega⟩)
    · refine Or.inr ⟨c.2.toNat, by omega, ?_⟩
      rcases hx with hx | hx
      · exact Or.inl (Prod.ext_iff.2 ⟨by simp; omega, by simp; omega⟩)
      · exact Or.inr (Prod.ext_iff.2 ⟨by simp; omega, by simp; omega⟩)

/-- C1 (code_bug): in every grid `generate_maze` can produce — for every level
and every random stream — the spawn cell `(1,1)` is OPEN but the exit cell
`(GRID_COLS-2, GRID_ROWS-2) = (20,16)` is WALL: both its coordinates are even,
and the DFS carve only ever opens cells with at least one odd coordinate, the
post-process only re-blocks, and the border re-stamp only writes walls.  The
claim (and the code's own intent: the reblocking loop protects `(20,16)` as the
"end" cell and the exit check targets it) says the exit cell is OPEN. -/
theorem maze_exit_wall_spawn_open (level : ℤ) (rng : ℕ → ℕ) :
    cellAt (generate_maze level rng) (GRID_COLS - 2, GRID_ROWS - 2) = 0 ∧
    cellAt (generate_maze level rng) (1, 1) = 1 := by
  constructor
  · unfold generate_maze stampBorder reblock
    apply foldl_setZero_preserve
    apply reblock_keeps_zero
    apply carveLoop_bothEven rng 1000 0 initialGrid [(1, 1)]
    · intro d hd
      rcases List.mem_cons.1 hd with rfl | hd2
      · exact ⟨by norm_num, by norm_num⟩
      · exact absurd hd2 (List.not_mem_nil _)
    · intro d hd1 hd2
      apply cellAt_setCell_ne
      intro he
      rw [he] at hd1
      simp at hd1
    · norm_num [GRID_COLS]
    · norm_num [GRID_ROWS]
  · unfold generate_maze stampBorder reblock
    rw [foldl_setZero_not_mem, reblock_spawn]
    · exact carveLoop_keeps_open rng 1000 0 initialGrid [(1, 1)] (cellAt_setCell_self _ _ _)
    · rw [mem_borderCells]
      norm_num [GRID_COLS, GRID_ROWS]

/-- C9: for every level and every random stream, every in-bounds cell on the
outer ring of the generated grid is WALL — the final re-stamp loops write the
whole ring. -/
theorem border_ring_wall (level : ℤ) (rng : ℕ → ℕ) (x y : ℤ)
    (hb : x = 0 ∨ x = GRID_COLS - 1 ∨ y = 0 ∨ y = GRID_ROWS - 1)
    (hx0 : 0 ≤ x) (hx1 : x < GRID_COLS) (hy0 : 0 ≤ y) (hy1 : y < GRID_ROWS) :
    cellAt (generate_maze level rng) (x, y) = 0 := by
  unfold generate_maze stampBorder
  apply foldl_setZero_mem
  rw [mem_borderCells]
  rcases hb with h | h | h | h
  · exact Or.inr ⟨Or.inl h, hy0, hy1⟩
  · exact Or.inr ⟨Or.inr h, hy0, hy1⟩
  · exact Or.inl ⟨Or.inl h, hx0, hx1⟩
  · exact Or.inl ⟨Or.inr h, hx0, hx1⟩

/-- Witness for C9: the top-left corner cell of a level-1 grid is WALL. -/
theorem border_ring_wall_witness :
    cellAt (generate_maze 1 zeroRng) (0, 5) = 0 :=
  border_ring_wall 1 zeroRng 0 5 (Or.inl rfl) (by norm_num)
    (by norm_num [GRID_COLS]) (by norm_num) (by norm_num [GRID_ROWS])

/-! ### The resolution phase of a tick (C2, C6) -/

lemma reset_positions_player_cell (s : MazeRunner) :
    (reset_positions s).player_cell = (1, 1) := rfl

lemma reset_positions_keeps (s : MazeRunner) :
    (reset_positions s).level = s.level ∧ (reset_positions s).lives = s.lives ∧
    (reset_positions s).state = s.state ∧ (reset_positions s).grid = s.grid :=
  ⟨rfl, rfl, rfl, rfl⟩

/-- The movement phase never touches the session bookkeeping fields. -/
lemma tickMove_keeps (s : MazeRunner) (input : Option (ℚ × ℚ)) (fsqrt : ℚ → ℚ) :
    (tickMove s input fsqrt).state = s.state ∧
    (tickMove s input fsqrt).level = s.level ∧
    (tickMove s input fsqrt).lives = s.lives ∧
    (tickMove s input fsqrt).grid = s.grid := by
  unfold tickMove
  cases input <;>
    · dsimp only
      split
      · exact ⟨rfl, rfl, rfl, rfl⟩
      · split
        · split
          · exact ⟨rfl, rfl, rfl, rfl⟩
          · exact ⟨rfl, rfl, rfl, rfl⟩
        · exact ⟨rfl, rfl, rfl, rfl⟩

/-- Two identical footprints always collide. -/
lemma rects_collide_self (p : ℚ × ℚ) :
    rects_collide p PLAYER_SIZE p ENEMY_SIZE = true := by
  simp only [rects_collide, Bool.and_eq_true, decide_eq_true_eq]
  refine ⟨⟨⟨?_, ?_⟩, ?_⟩, ?_⟩ <;> (simp only [PLAYER_SIZE, ENEMY_SIZE, TILE]; omega)

/-- The catch resolution followed by the exit check (source lines 343-367),
split by the three relevant regimes: lives survive the catch (the reset makes
the exit condition false), lives run out away from the exit, and lives run out
on the exit cell (both resolutions fire). -/
lemma tickResolve_catch (t : MazeRunner) (rng : ℕ → ℕ)
    (hcol : rects_collide t.player_pos PLAYER_SIZE t.enemy_pos ENEMY_SIZE = true) :
    (2 ≤ t.lives → tickResolve t rng = reset_positions { t with lives := t.lives - 1 }) ∧
    (t.lives ≤ 1 → t.player_cell ≠ (GRID_COLS - 2, GRID_ROWS - 2) →
      tickResolve t rng = { t with lives := t.lives - 1, state := Mode.game_over }) ∧
    (t.lives ≤ 1 → t.player_cell = (GRID_COLS - 2, GRID_ROWS - 2) →
      tickResolve t rng =
        if t.level < MAX_LEVEL then
          reset_positions
            { t with
              lives := t.lives - 1
              state := Mode.game_over
              level := t.level + 1
              grid := generate_maze (t.level + 1) rng }
        else { t with lives := t.lives - 1, state := Mode.win }) := by
  unfold tickResolve
  simp only [hcol, reduceIte]
  refine ⟨fun h2 => ?_, fun h1 hne => ?_, fun h1 hex => ?_⟩
  · rw [if_neg (by omega : ¬(t.lives - 1 ≤ 0))]
    rw [if_neg (show ¬((reset_positions { t with lives := t.lives - 1 }).player_cell =
        (GRID_COLS - 2, GRID_ROWS - 2)) by rw [reset_positions_player_cell]; decide)]
  · rw [if_pos (by omega : t.lives - 1 ≤ 0)]
    dsimp only
    rw [if_neg hne]
  · rw [if_pos (by omega : t.lives - 1 ≤ 0)]
    dsimp only
    rw [if_pos hex]

/-- The movement phase of a tick when both actors sit at the centre of the same
cell `c`: no player input, the BFS degenerates to the single-cell path, the
enemy does not move, and only the derived cells change. -/
lemma tickMove_samecell (s : MazeRunner) (fsqrt : ℚ → ℚ) (c : Cell)
    (hp : pixel_to_grid (s.player_pos.1 + ((PLAYER_SIZE.fdiv 2 : ℤ) : ℚ))
      (s.player_pos.2 + ((PLAYER_SIZE.fdiv 2 : ℤ) : ℚ)) = c)
    (he : pixel_to_grid (s.enemy_pos.1 + ((ENEMY_SIZE.fdiv 2 : ℤ) : ℚ))
      (s.enemy_pos.2 + ((ENEMY_SIZE.fdiv 2 : ℤ) : ℚ)) = c) :
    tickMove s none fsqrt = { s with player_cell := c, enemy_cell := c } := by
  unfold tickMove update_player_cell update_enemy_cell
  dsimp only
  rw [hp, he]
  rw [show bfs_path s.grid c c = some [c] by rw [bfs_path, if_pos rfl]]
  dsimp only [List.length_singleton]
  rw [if_neg (by norm_num)]

/-- The centre of the footprint position `(691,595)` lies in the exit cell. -/
lemma center_exit_cell :
    pixel_to_grid ((691 : ℚ) + ((PLAYER_SIZE.fdiv 2 : ℤ) : ℚ))
      ((595 : ℚ) + ((PLAYER_SIZE.fdiv 2 : ℤ) : ℚ)) = ((20 : ℤ), (16 : ℤ)) := by
  rw [PLAYER_SIZE_half]
  norm_num [pixel_to_grid, OFFSET_X_val, OFFSET_Y, TILE, GRID_COLS, GRID_ROWS]

/-- The centre of the footprint position `(83,115)` lies in the spawn cell. -/
lemma center_spawn_cell :
    pixel_to_grid ((83 : ℚ) + ((PLAYER_SIZE.fdiv 2 : ℤ) : ℚ))
      ((115 : ℚ) + ((PLAYER_SIZE.fdiv 2 : ℤ) : ℚ)) = ((1 : ℤ), (1 : ℤ)) := by
  rw [PLAYER_SIZE_half]
  norm_num [pixel_to_grid, OFFSET_X_val, OFFSET_Y, TILE, GRID_COLS, GRID_ROWS]

/-! ### C2: catch/exit tie-break -/

/-- C2 counterexample: a tick in which the footprints overlap, lives are 1, and
the player's cell is the exit cell makes *both* resolutions take effect: lives
drop to 0 and the state becomes GAME_OVER (catch), and in the same tick the
level increments from 1 to 2 with a regenerated grid (exit) — the two `if`
blocks of the source are sequential, and the GAME_OVER branch does not reset
`player_cell`. -/
theorem catch_exit_both_fire_cex :
    (update tickCexS none (fun _ => 1) zeroRng).lives = 0 ∧
    (update tickCexS none (fun _ => 1) zeroRng).state = Mode.game_over ∧
    (update tickCexS none (fun _ => 1) zeroRng).level = 2 := by
  have ht : tickMove tickCexS none (fun _ => 1) =
      { tickCexS with player_cell := ((20 : ℤ), 16), enemy_cell := ((20 : ℤ), 16) } :=
    tickMove_samecell tickCexS (fun _ => 1) ((20 : ℤ), 16) center_exit_cell center_exit_cell
  have h := (tickResolve_catch
      { tickCexS with player_cell := ((20 : ℤ), 16), enemy_cell := ((20 : ℤ), 16) }
      zeroRng (rects_collide_self _)).2.2 (by norm_num [tickCexS]) (by decide)
  unfold update
  rw [if_pos (show tickCexS.state = Mode.playing from rfl), ht, h,
    if_pos (by decide : ({ tickCexS with player_cell := ((20 : ℤ), 16), enemy_cell := ((20 : ℤ), 16) } : MazeRunner).level < MAX_LEVEL)]
  exact ⟨rfl, rfl, rfl⟩

/-- C2 amended: in a PLAYING tick where the post-movement footprints overlap
and the player's occupying cell is the exit cell, the catch is resolved first;
if lives survive (≥ 2 before the tick) the position reset falsifies the exit
condition and only the catch takes effect (level, grid, state unchanged);
but if the catch exhausts lives (≤ 1 before the tick) the exit resolution fires
as well in the same tick: below level 100 the level increments and the grid
regenerates while the state is GAME_OVER, and at level 100 the state becomes
WIN, overriding GAME_OVER. -/
theorem tick_catch_exit_priority (s : MazeRunner) (input : Option (ℚ × ℚ))
    (fsqrt : ℚ → ℚ) (rng : ℕ → ℕ)
    (hplay : s.state = Mode.playing)
    (hcol : rects_collide (tickMove s input fsqrt).player_pos PLAYER_SIZE
      (tickMove s input fsqrt).enemy_pos ENEMY_SIZE = true)
    (hexit : (tickMove s input fsqrt).player_cell = (GRID_COLS - 2, GRID_ROWS - 2)) :
    (2 ≤ s.lives →
      update s input fsqrt rng =
        reset_positions { tickMove s input fsqrt with lives := s.lives - 1 } ∧
      (update s input fsqrt rng).level = s.level ∧
      (update s input fsqrt rng).grid = s.grid ∧
      (update s input fsqrt rng).state = Mode.playing ∧
      (update s input fsqrt rng).lives = s.lives - 1) ∧
    (s.lives ≤ 1 →
      (update s input fsqrt rng).lives = s.lives - 1 ∧
      (s.level < MAX_LEVEL →
        (update s input fsqrt rng).state = Mode.game_over ∧
        (update s input fsqrt rng).level = s.level + 1) ∧
      (MAX_LEVEL ≤ s.level →
        (update s input fsqrt rng).state = Mode.win ∧
        (update s input fsqrt rng).level = s.level)) := by
  obtain ⟨hst, hlv, hlf, hgr⟩ := tickMove_keeps s input fsqrt
  have hup : update s input fsqrt rng = tickResolve (tickMove s input fsqrt) rng := by
    unfold update
    rw [if_pos hplay]
  obtain ⟨hA, _, hC⟩ := tickResolve_catch (tickMove s input fsqrt) rng hcol
  constructor
  · intro h2
    have h2' : 2 ≤ (tickMove s input fsqrt).lives := by rw [hlf]; exact h2
    have hres : update s input fsqrt rng =
        reset_positions { tickMove s input fsqrt with lives := s.lives - 1 } := by
      rw [hup, hA h2', hlf]
    refine ⟨hres, ?_, ?_, ?_, ?_⟩
    · rw [hres, (reset_positions_keeps _).1]
      exact hlv
    · rw [hres, (reset_positions_keeps _).2.2.2]
      exact hgr
    · rw [hres, (reset_positions_keeps _).2.2.1]
      exact hst.trans hplay
    · rw [hres]
      rfl
  · intro h1
    have h1' : (tickMove s input fsqrt).lives ≤ 1 := by rw [hlf]; exact h1
    have hres := hC h1' hexit
    rw [hup, hres]
    by_cases hlev : (tickMove s input fsqrt).level < MAX_LEVEL
    · rw [if_pos hlev]
      rw [hlv] at hlev
      refine ⟨?_, fun _ => ⟨?_, ?_⟩, fun hge => absurd hlev (by omega)⟩
      · rw [(reset_positions_keeps _).2.1]
        exact congrArg (· - 1) hlf
      · rw [(reset_positions_keeps _).2.2.1]
      · rw [(reset_positions_keeps _).1]
        exact congrArg (· + 1) hlv
    · rw [if_neg hlev]
      rw [hlv] at hlev
      exact ⟨by rw [hlf], fun hlt => absurd hlt (by omega),
        fun _ => ⟨rfl, hlv⟩⟩

/-- Witness for C2 amended, at two lives: only the catch applies. -/
theorem tick_catch_exit_priority_witness :
    update tickWit2S none (fun _ => 1) zeroRng =
      reset_positions { tickMove tickWit2S none (fun _ => 1) with lives := tickWit2S.lives - 1 } ∧
    (update tickWit2S none (fun _ => 1) zeroRng).level = tickWit2S.level ∧
    (update tickWit2S none (fun _ => 1) zeroRng).state = Mode.playing := by
  have ht : tickMove tickWit2S none (fun _ => 1) =
      { tickWit2S with player_cell := ((20 : ℤ), 16), enemy_cell := ((20 : ℤ), 16) } :=
    tickMove_samecell tickWit2S (fun _ => 1) ((20 : ℤ), 16) center_exit_cell center_exit_cell
  have h := (tick_catch_exit_priority tickWit2S none (fun _ => 1) zeroRng rfl
    (by rw [ht]; exact rects_collide_self _)
    (by rw [ht]; decide)).1 (by norm_num [tickWit2S])
  exact ⟨h.1, h.2.1, h.2.2.2.1⟩

/-! ### C6: catch resolution -/

/-- C6 counterexample: with one life and the player's cell equal to the exit
cell, the catch makes the state GAME_OVER but the level does *not* stay
unchanged — the sequential exit check increments it from 5 to 6. -/
theorem catch_gameover_level_changed_cex :
    (update tickCex6S none (fun _ => 1) zeroRng).state = Mode.game_over ∧
    (update tickCex6S none (fun _ => 1) zeroRng).lives = 0 ∧
    (update tickCex6S none (fun _ => 1) zeroRng).level = 6 := by
  have ht : tickMove tickCex6S none (fun _ => 1) =
      { tickCex6S with player_cell := ((20 : ℤ), 16), enemy_cell := ((20 : ℤ), 16) } :=
    tickMove_samecell tickCex6S (fun _ => 1) ((20 : ℤ), 16) center_exit_cell center_exit_cell
  have h := (tickResolve_catch
      { tickCex6S with player_cell := ((20 : ℤ), 16), enemy_cell := ((20 : ℤ), 16) }
      zeroRng (rects_collide_self _)).2.2 (by norm_num [tickCex6S]) (by decide)
  unfold update
  rw [if_pos (show tickCex6S.state = Mode.playing from rfl), ht, h,
    if_pos (by decide : ({ tickCex6S with player_cell := ((20 : ℤ), 16), enemy_cell := ((20 : ℤ), 16) } : MazeRunner).level < MAX_LEVEL)]
  exact ⟨rfl, rfl, rfl⟩

/-- C6 amended: in a PLAYING tick where the post-movement footprints overlap,
lives decrement by one.  If lives survive (≥ 2 before the tick), both actors
reset to their level-start spawn points and level, grid and state are
unchanged.  If the catch exhausts lives (≤ 1 before the tick) and the player's
occupying cell is not the exit cell, the state becomes GAME_OVER with level and
grid unchanged and no position reset; when it *is* the exit cell the exit
resolution additionally fires (see the catch/exit tie-break claim). -/
theorem catch_resolution_amended (s : MazeRunner) (input : Option (ℚ × ℚ))
    (fsqrt : ℚ → ℚ) (rng : ℕ → ℕ)
    (hplay : s.state = Mode.playing)
    (hcol : rects_collide (tickMove s input fsqrt).player_pos PLAYER_SIZE
      (tickMove s input fsqrt).enemy_pos ENEMY_SIZE = true) :
    (2 ≤ s.lives →
      update s input fsqrt rng =
        reset_positions { tickMove s input fsqrt with lives := s.lives - 1 } ∧
      (update s input fsqrt rng).lives = s.lives - 1 ∧
      (update s input fsqrt rng).state = Mode.playing ∧
      (update s input fsqrt rng).level = s.level ∧
      (update s input fsqrt rng).grid = s.grid ∧
      (update s input fsqrt rng).player_pos = ((83 : ℚ), 115) ∧
      (update s input fsqrt rng).enemy_pos = ((691 : ℚ), 595)) ∧
    (s.lives ≤ 1 →
      (tickMove s input fsqrt).player_cell ≠ (GRID_COLS - 2, GRID_ROWS - 2) →
      update s input fsqrt rng =
        { tickMove s input fsqrt with lives := s.lives - 1, state := Mode.game_over }) := by
  obtain ⟨hst, hlv, hlf, hgr⟩ := tickMove_keeps s input fsqrt
  have hup : update s input fsqrt rng = tickResolve (tickMove s input fsqrt) rng := by
    unfold update
    rw [if_pos hplay]
  obtain ⟨hA, hB, _⟩ := tickResolve_catch (tickMove s input fsqrt) rng hcol
  constructor
  · intro h2
    have h2' : 2 ≤ (tickMove s input fsqrt).lives := by rw [hlf]; exact h2
    have hres : update s input fsqrt rng =
        reset_positions { tickMove s input fsqrt with lives := s.lives - 1 } := by
      rw [hup, hA h2', hlf]
    refine ⟨hres, ?_, ?_, ?_, ?_, ?_, ?_⟩
    · rw [hres]
      rfl
    · rw [hres, (reset_positions_keeps _).2.2.1]
      exact hst.trans hplay
    · rw [hres, (reset_positions_keeps _).1]
      exact hlv
    · rw [hres, (reset_positions_keeps _).2.2.2]
      exact hgr
    · rw [hres, reset_positions_eq]
    · rw [hres, reset_positions_eq]
  · intro h1 hne
    have h1' : (tickMove s input fsqrt).lives ≤ 1 := by rw [hlf]; exact h1
    rw [hup, hB h1' hne, hlf]

/-- Witness for C6 amended, at three lives away from the exit: lives drop to 2,
positions reset to the spawn points, level, grid and state unchanged. -/
theorem catch_resolution_amended_witness :
    (update tickWit6S none (fun _ => 1) zeroRng).lives = 2 ∧
    (update tickWit6S none (fun _ => 1) zeroRng).state = Mode.playing ∧
    (update tickWit6S none (fun _ => 1) zeroRng).level = 3 ∧
    (update tickWit6S none (fun _ => 1) zeroRng).player_pos = ((83 : ℚ), 115) ∧
    (update tickWit6S none (fun _ => 1) zeroRng).enemy_pos = ((691 : ℚ), 595) := by
  have ht : tickMove tickWit6S none (fun _ => 1) =
      { tickWit6S with player_cell := ((1 : ℤ), 1), enemy_cell := ((1 : ℤ), 1) } :=
    tickMove_samecell tickWit6S (fun _ => 1) ((1 : ℤ), 1) center_spawn_cell center_spawn_cell
  have h := (catch_resolution_amended tickWit6S none (fun _ => 1) zeroRng rfl
    (by rw [ht]; exact rects_collide_self _)).1 (by norm_num [tickWit6S])
  exact ⟨h.2.1, h.2.2.1, h.2.2.2.1, h.2.2.2.2.2⟩

/-! ### BFS basics: the predecessor map as an association list -/

lemma lookupCame_cons (kv : Cell × Option Cell) (rest : Came) (c : Cell) :
    lookupCame (kv :: rest) c = if c = kv.1 then some kv.2 else lookupCame rest c := by
  obtain ⟨k, v⟩ := kv
  rfl

lemma lookupCame_append_left {a : Came} (b : Came) {c : Cell} {v : Option Cell}
    (h : lookupCame a c = some v) : lookupCame (a ++ b) c = some v := by
  induction a with
  | nil => simp [lookupCame] at h
  | cons kv a ih =>
    rw [List.cons_append, lookupCame_cons]
    rw [lookupCame_cons] at h
    by_cases hc : c = kv.1
    · rw [if_pos hc] at h ⊢
      exact h
    · rw [if_neg hc] at h ⊢
      exact ih h

lemma lookupCame_append_right {a : Came} (b : Came) {c : Cell}
    (h : lookupCame a c = none) : lookupCame (a ++ b) c = lookupCame b c := by
  induction a with
  | nil => rfl
  | cons kv a ih =>
    rw [List.cons_append, lookupCame_cons]
    rw [lookupCame_cons] at h
    by_cases hc : c = kv.1
    · rw [if_pos hc] at h
      exact absurd h (by simp)
    · rw [if_neg hc] at h ⊢
      exact ih h

lemma lookupCame_eq_none_iff {came : Came} {c : Cell} :
    lookupCame came c = none ↔ c ∉ keysOf came := by
  induction came with
  | nil => simp [lookupCame, keysOf]
  | cons kv came ih =>
    unfold lookupCame keysOf
    by_cases hc : c = kv.1
    · subst hc
      rw [if_pos rfl]
      simp
    · rw [if_neg (by exact_mod_cast hc)]
      simp only [List.map_cons, List.mem_cons]
      rw [ih]
      unfold keysOf
      constructor
      · intro h hx
        rcases hx with hx | hx
        · exact hc hx
        · exact h hx
      · intro h hx
        exact h (Or.inr hx)

lemma lookupCame_isSome_iff {came : Came} {c : Cell} :
    (lookupCame came c).isSome = true ↔ c ∈ keysOf came := by
  rw [Option.isSome_iff_ne_none, Ne, lookupCame_eq_none_iff, not_not]

lemma lookupCame_mem {came : Came} {c : Cell} {p : Option Cell}
    (h : lookupCame came c = some p) : (c, p) ∈ came := by
  induction came with
  | nil => simp [lookupCame] at h
  | cons kv came ih =>
    rw [lookupCame_cons] at h
    split at h
    · next hc =>
      have hp : p = kv.2 := (Option.some.inj h).symm
      have he : (c, p) = kv := by rw [hc, hp]
      rw [he]
      exact List.mem_cons_self _ _
    · exact List.mem_cons_of_mem _ (ih h)

lemma mem_keysOf_of_mem {came : Came} {c : Cell} {p : Option Cell}
    (h : (c, p) ∈ came) : c ∈ keysOf came :=
  List.mem_map.2 ⟨(c, p), h, rfl⟩

lemma lookupCame_eq_of_mem {came : Came} {c : Cell} {p : Option Cell}
    (hnd : (keysOf came).Nodup) (h : (c, p) ∈ came) : lookupCame came c = some p := by
  induction came with
  | nil => simp at h
  | cons kv came ih =>
    unfold keysOf at hnd
    rw [List.map_cons, List.nodup_cons] at hnd
    rcases List.mem_cons.1 h with rfl | h2
    · unfold lookupCame
      rw [if_pos rfl]
    · unfold lookupCame
      rw [if_neg, ih hnd.2 h2]
      intro he
      exact hnd.1 (he ▸ mem_keysOf_of_mem h2)

lemma exists_of_mem_keysOf {came : Came} {c : Cell} (h : c ∈ keysOf came) :
    ∃ p, (c, p) ∈ came := by
  obtain ⟨⟨k, p⟩, hm, he⟩ := List.mem_map.1 h
  exact ⟨p, by simpa [← he] using hm⟩

lemma keysOf_append (a b : Came) : keysOf (a ++ b) = keysOf a ++ keysOf b :=
  List.map_append _ _ _

lemma keysOf_tagged (l : List Cell) (cur : Cell) :
    keysOf (l.map fun n => (n, some cur)) = l := by
  unfold keysOf
  rw [List.map_map, show (Prod.fst ∘ fun n : Cell => (n, some cur)) = id from rfl,
    List.map_id]

lemma mem_nbrs {p c : Cell} :
    p ∈ nbrs c ↔ p = (c.1 + 1, c.2) ∨ p = (c.1 - 1, c.2) ∨
      p = (c.1, c.2 + 1) ∨ p = (c.1, c.2 - 1) := by
  simp [nbrs]

lemma nbrs_nodup (c : Cell) : (nbrs c).Nodup := by
  simp [nbrs, Prod.ext_iff]
  omega

/-- The single-step characterisation of the BFS expansion: the queue gets the
fresh in-bounds open neighbours appended, and the map records `cur` as their
predecessor. -/
lemma foldl_expandOne_eq (g : Grid) (cur : Cell) :
    ∀ (L : List Cell), L.Nodup → ∀ (q : List Cell) (came : Came),
      L.foldl (expandOne g cur) (q, came) =
        (q ++ L.filter (fun n => decide (okCell g n ∧ lookupCame came n = none)),
         came ++ (L.filter (fun n => decide (okCell g n ∧ lookupCame came n = none))).map
           (fun n => (n, some cur))) := by
  intro L
  induction L with
  | nil => intro _ q came; simp
  | cons n L ih =>
    intro hnd q came
    rw [List.nodup_cons] at hnd
    rw [List.foldl_cons]
    by_cases hc : okCell g n ∧ lookupCame came n = none
    · rw [show expandOne g cur (q, came) n = (q ++ [n], came ++ [(n, some cur)]) by
        unfold expandOne; rw [if_pos hc]]
      rw [ih hnd.2]
      have hfc : L.filter (fun m => decide (okCell g m ∧
          lookupCame (came ++ [(n, some cur)]) m = none)) =
          L.filter (fun m => decide (okCell g m ∧ lookupCame came m = none)) := by
        apply List.filter_congr
        intro m hm
        have hmn : m ≠ n := fun he => hnd.1 (he ▸ hm)
        have : lookupCame (came ++ [(n, some cur)]) m = lookupCame came m := by
          cases hl : lookupCame came m with
          | some v => exact lookupCame_append_left _ hl
          | none =>
            rw [lookupCame_append_right _ hl]
            unfold lookupCame
            rw [if_neg hmn]
            rfl
        rw [this]
      rw [hfc]
      rw [show (n :: L).filter (fun m => decide (okCell g m ∧ lookupCame came m = none)) =
          n :: L.filter (fun m => decide (okCell g m ∧ lookupCame came m = none)) by
        rw [List.filter_cons_of_pos (by simpa using hc)]]
      simp [List.append_assoc]
    · rw [show expandOne g cur (q, came) n = (q, came) by
        unfold expandOne; rw [if_neg hc]]
      rw [ih hnd.2]
      rw [show (n :: L).filter (fun m => decide (okCell g m ∧ lookupCame came m = none)) =
          L.filter (fun m => decide (okCell g m ∧ lookupCame came m = none)) by
        rw [List.filter_cons_of_neg (by simpa using hc)]]

/-- `stepExpand` in terms of `freshNbrs`. -/
lemma stepExpand_eq (g : Grid) (cur : Cell) (q : List Cell) (came : Came) :
    stepExpand g cur q came =
      (q ++ freshNbrs g cur came,
       came ++ (freshNbrs g cur came).map (fun n => (n, some cur))) :=
  foldl_expandOne_eq g cur (nbrs cur) (nbrs_nodup cur) q came

lemma mem_freshNbrs {g : Grid} {cur n : Cell} {came : Came} :
    n ∈ freshNbrs g cur came ↔ n ∈ nbrs cur ∧ okCell g n ∧ n ∉ keysOf came := by
  unfold freshNbrs
  rw [List.mem_filter]
  simp [lookupCame_eq_none_iff]

lemma freshNbrs_nodup (g : Grid) (cur : Cell) (came : Came) :
    (freshNbrs g cur came).Nodup :=
  (nbrs_nodup cur).filter _

/-! ### C3: invalid BFS endpoints -/

/-- Every predicate that holds of the initial keys and of all in-bounds open
cells holds of every key the BFS loop ever produces. -/
lemma bfsAux_keys_pred (g : Grid) (goal : Cell) (P : Cell → Prop)
    (hP : ∀ k, okCell g k → P k) (f : ℕ) :
    ∀ (q : List Cell) (came : Came), (∀ k ∈ keysOf came, P k) →
      ∀ k ∈ keysOf (bfsAux g goal f q came), P k := by
  induction f with
  | zero => intro q came h; exact h
  | succ f ih =>
    intro q came h
    cases q with
    | nil => exact h
    | cons cur q =>
      rw [bfsAux]
      by_cases hg : cur = goal
      · rw [if_pos hg]
        exact h
      · rw [if_neg hg]
        dsimp only
        rw [stepExpand_eq]
        dsimp only
        apply ih
        intro k hk
        rw [keysOf_append, keysOf_tagged] at hk
        rcases List.mem_append.1 hk with hk | hk
        · exact h k hk
        · exact hP k (mem_freshNbrs.1 hk).2.1

/-- C3 amended: when start ≠ goal and the goal is out of bounds or a WALL cell,
`bfs_path` returns no path; when start = goal it returns `[start]` without
inspecting the cell at all (even a WALL or out-of-bounds cell); and on a grid
whose border ring is WALL, an out-of-bounds start (≠ goal) also yields no path
because all of its in-bounds neighbours are border walls. -/
theorem bfs_invalid_endpoints (g : Grid) (s gl : Cell) :
    (s = gl → bfs_path g s gl = some [s]) ∧
    (s ≠ gl → ¬okCell g gl → bfs_path g s gl = none) ∧
    (s ≠ gl →
      (∀ c : Cell, (0 ≤ c.1 ∧ c.1 < GRID_COLS ∧ 0 ≤ c.2 ∧ c.2 < GRID_ROWS) →
        (c.1 = 0 ∨ c.1 = GRID_COLS - 1 ∨ c.2 = 0 ∨ c.2 = GRID_ROWS - 1) →
        cellAt g c = 0) →
      ¬(0 ≤ s.1 ∧ s.1 < GRID_COLS ∧ 0 ≤ s.2 ∧ s.2 < GRID_ROWS) →
      bfs_path g s gl = none) := by
  refine ⟨fun h => by rw [bfs_path, if_pos h, h], fun hne hbad => ?_,
    fun hne hbw hoob => ?_⟩
  · rw [bfs_path, if_neg hne]
    have hkeys := bfsAux_keys_pred g gl (fun k => k = s ∨ okCell g k)
      (fun k hk => Or.inr hk) bfsFuel [s] [(s, none)]
      (by
        intro k hk
        simp only [keysOf, List.map_cons, List.map_nil, List.mem_singleton] at hk
        exact Or.inl hk)
    have hgl : gl ∉ keysOf (bfsAux g gl bfsFuel [s] [(s, none)]) := by
      intro hmem
      rcases hkeys gl hmem with he | hok
      · exact hne he.symm
      · exact hbad hok
    rw [if_neg (fun hs => hgl (lookupCame_isSome_iff.1 hs))]
  · rw [bfs_path, if_neg hne]
    have hstep : freshNbrs g s [(s, none)] = [] := by
      unfold freshNbrs
      rw [List.filter_eq_nil_iff]
      intro n hn
      simp only [decide_eq_true_eq]
      intro hcond
      obtain ⟨⟨hb, hopen⟩, _⟩ := hcond
      have hborder : n.1 = 0 ∨ n.1 = GRID_COLS - 1 ∨ n.2 = 0 ∨ n.2 = GRID_ROWS - 1 := by
        rcases mem_nbrs.1 hn with rfl | rfl | rfl | rfl <;>
          (dsimp only at hb ⊢; simp only [GRID_COLS, GRID_ROWS] at hb hoob ⊢; omega)
      rw [hbw n hb hborder] at hopen
      exact absurd hopen (by norm_num)
    have h1 : stepExpand g s [] [(s, none)] = ([], [(s, none)]) := by
      rw [stepExpand_eq, hstep]
      simp
    have h2 : bfsAux g gl bfsFuel [s] [(s, none)] = [(s, none)] := by
      rw [show bfsFuel = 1988 + 1 + 1 from rfl]
      rw [bfsAux, if_neg hne]
      dsimp only
      rw [h1]
      rw [bfsAux]
    rw [h2]
    rw [if_neg]
    intro hs
    have hm := lookupCame_isSome_iff.1 hs
    simp only [keysOf, List.map_cons, List.map_nil, List.mem_singleton] at hm
    exact hne hm.symm

/-- C3 counterexample: on the all-wall grid with start = goal = (0,0) — a WALL
cell — `bfs_path` returns the one-cell path instead of the "no path" the claim
requires. -/
theorem bfs_wall_start_goal_cex :
    cellAt (fun _ => 0) ((0 : ℤ), (0 : ℤ)) = 0 ∧
    bfs_path (fun _ => 0) ((0 : ℤ), (0 : ℤ)) ((0 : ℤ), (0 : ℤ)) =
      some [((0 : ℤ), (0 : ℤ))] :=
  ⟨rfl, by rw [bfs_path, if_pos rfl]⟩

/-- Witness for C3 amended: an out-of-bounds goal yields no path. -/
theorem bfs_invalid_endpoints_witness :
    bfs_path (fun _ => 1) ((1 : ℤ), (1 : ℤ)) ((30 : ℤ), (5 : ℤ)) = none :=
  (bfs_invalid_endpoints (fun _ => 1) ((1 : ℤ), (1 : ℤ)) ((30 : ℤ), (5 : ℤ))).2.1
    (by decide) (by decide)

/-! ### C7: paths versus step-indexed reachability -/

lemma head?_append_of_ne_nil {α : Type} {l : List α} (l2 : List α) (h : l ≠ []) :
    (l ++ l2).head? = l.head? := by
  cases l with
  | nil => exact absurd rfl h
  | cons a l => rfl

/-- A valid path list of length `n+1` from `s` to `gl` yields `ReachN n gl`;
only the cells after the head need to be open. -/
lemma reach_of_path (g : Grid) (s : Cell) :
    ∀ (l : List Cell) (gl : Cell), l.head? = some s → l.getLast? = some gl →
      l.Chain' (fun a b => b ∈ nbrs a) → (∀ c ∈ l.tail, okCell g c) →
      ReachN g s (l.length - 1) gl := by
  intro l
  induction l using List.reverseRecOn with
  | nil => intro gl h1; exact absurd h1 (by simp)
  | append_singleton l x ih =>
    intro gl h1 h2 h3 h4
    have hgl : gl = x := by
      rw [List.getLast?_concat] at h2
      exact (Option.some.inj h2).symm
    subst hgl
    cases hl : l with
    | nil =>
      subst hl
      have hs : gl = s := Option.some.inj h1
      subst hs
      exact ReachN.refl
    | cons a l2 =>
      have hlne : l ≠ [] := by rw [hl]; exact List.cons_ne_nil _ _
      obtain ⟨y, hy⟩ : ∃ y, l.getLast? = some y := by
        cases hly : l.getLast? with
        | none => exact absurd (List.getLast?_eq_none_iff.1 hly) hlne
        | some y => exact ⟨y, rfl⟩
      obtain ⟨hc1, hc2, hc3⟩ := List.chain'_append.1 h3
      have hr : ReachN g s (l.length - 1) y := by
        apply ih y ?_ hy hc1 ?_
        · rw [head?_append_of_ne_nil _ hlne] at h1
          exact h1
        · intro c hc
          apply h4
          rw [hl] at hc ⊢
          rw [List.cons_append]
          exact List.mem_append_left _ hc
      have hadj : gl ∈ nbrs y := hc3 y hy gl rfl
      have hok : okCell g gl := by
        apply h4
        rw [hl, List.cons_append]
        exact List.mem_append_right _ (List.mem_singleton.2 rfl)
      have hstep := ReachN.step hr hadj hok
      have hlen : l.length - 1 + 1 = (l ++ [gl]).length - 1 := by
        rw [List.length_append]
        have hpos : 0 < l.length := List.length_pos.2 hlne
        simp only [List.length_singleton]
        omega
      rw [hlen] at hstep
      rw [← hl]
      exact hstep

/-- `ReachN n gl` yields a valid path list of length `n+1` (given an open
start). -/
lemma path_of_reach (g : Grid) (s : Cell) (hs : okCell g s) :
    ∀ {n : ℕ} {gl : Cell}, ReachN g s n gl →
      ∃ l, isValidPath g s gl l ∧ l.length = n + 1 := by
  intro n gl h
  induction h with
  | refl =>
    exact ⟨[s], ⟨rfl, rfl, by simpa using hs, List.chain'_singleton _⟩, rfl⟩
  | @step n c c2 hr hn hok ih =>
    obtain ⟨l, ⟨h1, h2, h3, h4⟩, h5⟩ := ih
    have hlne : l ≠ [] := by
      intro he
      rw [he] at h1
      exact absurd h1 (by simp)
    refine ⟨l ++ [c2], ⟨?_, List.getLast?_concat _, ?_, ?_⟩, ?_⟩
    · rw [head?_append_of_ne_nil _ hlne]
      exact h1
    · intro x hx
      rcases List.mem_append.1 hx with hx | hx
      · exact h3 x hx
      · rw [List.mem_singleton.1 hx]
        exact hok
    · refine List.chain'_append.2 ⟨h4, List.chain'_singleton _, ?_⟩
      intro a ha b hb
      have hac : a = c := by
        rw [h2] at ha
        exact (Option.mem_some_iff.1 ha).symm
      have hbc : c2 = b := by simpa using hb
      rw [hac, ← hbc]
      exact hn
    · rw [List.length_append, h5]
      rfl

/-- The keys of a predecessor tree are the root or open cells. -/
lemma keys_ok_of_tree {g : Grid} {start : Cell} {d : Cell → ℕ} {came : Came}
    (tree : ∀ k p, (k, p) ∈ came → k ≠ start →
      ∃ pc, p = some pc ∧ pc ∈ keysOf came ∧ k ∈ nbrs pc ∧ okCell g k ∧
        d k = d pc + 1) :
    ∀ k ∈ keysOf came, k = start ∨ okCell g k := by
  intro k hk
  by_cases hsk : k = start
  · exact Or.inl hsk
  · obtain ⟨p, hp⟩ := exists_of_mem_keysOf hk
    obtain ⟨pc, _, _, _, hok, _⟩ := tree k p hp hsk
    exact Or.inr hok

/-- At most `1 + 22·18 = 397` distinct keys can ever be discovered. -/
lemma keys_card_le {g : Grid} {start : Cell} {came : Came}
    (hnd : (keysOf came).Nodup)
    (hok : ∀ k ∈ keysOf came, k = start ∨ okCell g k) :
    (keysOf came).length ≤ 397 := by
  classical
  have h1 : (keysOf came).toFinset ⊆
      insert start ((Finset.Icc (0 : ℤ) 21) ×ˢ (Finset.Icc (0 : ℤ) 17)) := by
    intro k hk
    rcases hok k (List.mem_toFinset.1 hk) with rfl | hokk
    · exact Finset.mem_insert_self _ _
    · refine Finset.mem_insert_of_mem ?_
      rw [Finset.mem_product, Finset.mem_Icc, Finset.mem_Icc]
      obtain ⟨⟨ha, hb, hc2, hd2⟩, _⟩ := hokk
      simp only [GRID_COLS, GRID_ROWS] at hb hd2
      exact ⟨⟨ha, by omega⟩, ⟨hc2, by omega⟩⟩
  have h2 := Finset.card_le_card h1
  have h3 : (keysOf came).toFinset.card = (keysOf came).length :=
    List.toFinset_card_of_nodup hnd
  have h4 : (insert start ((Finset.Icc (0 : ℤ) 21) ×ˢ (Finset.Icc (0 : ℤ) 17))).card ≤ 397 := by
    refine le_trans (Finset.card_insert_le _ _) ?_
    rw [Finset.card_product, Int.card_Icc, Int.card_Icc]
    decide
  omega

/-- The cut argument: while `cur` heads the queue, any undiscovered cell is at
graph distance at least `d cur + 1` — every path to it crosses the frontier. -/
lemma bfs_cut {g : Grid} {start : Cell} {d : Cell → ℕ} {cur : Cell}
    {q : List Cell} {came : Came} (hInv : BfsInv g start d (cur :: q) came) :
    ∀ {m : ℕ} {c : Cell}, ReachN g start m c → c ∉ keysOf came → d cur + 1 ≤ m := by
  intro m c h
  induction h with
  | refl =>
    intro hc
    exact absurd (mem_keysOf_of_mem (lookupCame_mem hInv.lk_start)) hc
  | @step n v w hr hn hok ih =>
    intro hw
    by_cases hv : v ∈ keysOf came
    · by_cases hvq : v ∈ cur :: q
      · have hdv : d v ≤ n := hInv.mind v hv n hr
        have hcur : d cur ≤ d v := by
          rcases List.mem_cons.1 hvq with rfl | hq
          · exact le_refl _
          · exact (List.pairwise_cons.1 hInv.q_sorted).1 v hq
        omega
      · exact absurd (hInv.closed v hv hvq w hn hok) hw
    · have := ih hv
      omega

/-- One BFS expansion step preserves the invariant: the fresh neighbours of the
dequeued head are appended to the queue and recorded at distance `d cur + 1`. -/
lemma bfsInv_step {g : Grid} {start : Cell} {d : Cell → ℕ} {cur : Cell}
    {q : List Cell} {came : Came} (hInv : BfsInv g start d (cur :: q) came) :
    BfsInv g start (fun c => if c ∈ freshNbrs g cur came then d cur + 1 else d c)
      (q ++ freshNbrs g cur came)
      (came ++ (freshNbrs g cur came).map (fun n => (n, some cur))) := by
  classical
  set new := freshNbrs g cur came with hnewdef
  set d2 := fun c => if c ∈ new then d cur + 1 else d c with hd2def
  set came2 := came ++ new.map (fun n => (n, some cur)) with hcame2def
  have hkeys2 : keysOf came2 = keysOf came ++ new := by
    rw [hcame2def, keysOf_append, keysOf_tagged]
  have hfresh : ∀ n ∈ new, n ∈ nbrs cur ∧ okCell g n ∧ n ∉ keysOf came :=
    fun n hn => mem_freshNbrs.1 hn
  have hcur_mem : cur ∈ keysOf came := hInv.q_sub cur (List.mem_cons_self _ _)
  have hd2_old : ∀ c ∈ keysOf came, d2 c = d c := by
    intro c hc
    rw [hd2def]
    dsimp only
    rw [if_neg (fun hcn => (hfresh c hcn).2.2 hc)]
  have hd2_new : ∀ n ∈ new, d2 n = d cur + 1 := by
    intro n hn
    rw [hd2def]
    dsimp only
    rw [if_pos hn]
  have hd2_cur : d2 cur = d cur := hd2_old cur hcur_mem
  have hmem2 : ∀ k, k ∈ keysOf came2 ↔ k ∈ keysOf came ∨ k ∈ new := by
    intro k
    rw [hkeys2, List.mem_append]
  have hstart_mem : start ∈ keysOf came :=
    mem_keysOf_of_mem (lookupCame_mem hInv.lk_start)
  refine ⟨?_, ?_, ?_, ?_, ?_, ?_, ?_, ?_, ?_, ?_, ?_⟩
  · exact lookupCame_append_left _ hInv.lk_start
  · rw [hd2_old start hstart_mem]
    exact hInv.d_start
  · intro k p hkp hks
    rcases List.mem_append.1 hkp with hkp | hkp
    · obtain ⟨pc, hp1, hp2, hp3, hp4, hp5⟩ := hInv.tree k p hkp hks
      refine ⟨pc, hp1, (hmem2 pc).2 (Or.inl hp2), hp3, hp4, ?_⟩
      rw [hd2_old k (mem_keysOf_of_mem hkp), hd2_old pc hp2]
      exact hp5
    · obtain ⟨n, hn, he⟩ := List.mem_map.1 hkp
      have hk : k = n := (congrArg Prod.fst he).symm
      have hp : p = some cur := (congrArg Prod.snd he).symm
      subst hk
      subst hp
      refine ⟨cur, rfl, (hmem2 cur).2 (Or.inl hcur_mem), (hfresh k hn).1,
        (hfresh k hn).2.1, ?_⟩
      rw [hd2_new k hn, hd2_cur]
  · rw [hkeys2, List.nodup_append]
    exact ⟨hInv.nodup, freshNbrs_nodup g cur came,
      fun k hk1 hk2 => (hfresh k hk2).2.2 hk1⟩
  · intro k hk
    rcases (hmem2 k).1 hk with hk2 | hk2
    · rw [hd2_old k hk2]
      exact hInv.reach k hk2
    · rw [hd2_new k hk2]
      exact ReachN.step (hInv.reach cur hcur_mem) (hfresh k hk2).1 (hfresh k hk2).2.1
  · intro k hk m hm
    rcases (hmem2 k).1 hk with hk2 | hk2
    · rw [hd2_old k hk2]
      exact hInv.mind k hk2 m hm
    · rw [hd2_new k hk2]
      exact bfs_cut hInv hm (hfresh k hk2).2.2
  · intro x hx
    rcases List.mem_append.1 hx with hx | hx
    · exact (hmem2 x).2 (Or.inl (hInv.q_sub x (List.mem_cons_of_mem _ hx)))
    · exact (hmem2 x).2 (Or.inr hx)
  · rw [List.nodup_append]
    refine ⟨(List.nodup_cons.1 hInv.q_nodup).2, freshNbrs_nodup g cur came, ?_⟩
    intro a ha han
    exact (hfresh a han).2.2 (hInv.q_sub a (List.mem_cons_of_mem _ ha))
  · rw [List.pairwise_append]
    refine ⟨?_, ?_, ?_⟩
    · refine List.Pairwise.imp_of_mem ?_ ((List.pairwise_cons.1 hInv.q_sorted).2)
      intro a b ha hb hab
      rw [hd2_old a (hInv.q_sub a (List.mem_cons_of_mem _ ha)),
        hd2_old b (hInv.q_sub b (List.mem_cons_of_mem _ hb))]
      exact hab
    · refine List.pairwise_of_forall_mem_list ?_
      intro a ha b hb
      rw [hd2_new a ha, hd2_new b hb]
    · intro a ha b hb
      rw [hd2_old a (hInv.q_sub a (List.mem_cons_of_mem _ ha)), hd2_new b hb]
      exact hInv.q_band a (List.mem_cons_of_mem _ ha) cur (List.mem_cons_self _ _)
  · intro a ha b hb
    rcases List.mem_append.1 ha with ha2 | ha2 <;> rcases List.mem_append.1 hb with hb2 | hb2
    · rw [hd2_old a (hInv.q_sub a (List.mem_cons_of_mem _ ha2)),
        hd2_old b (hInv.q_sub b (List.mem_cons_of_mem _ hb2))]
      exact hInv.q_band a (List.mem_cons_of_mem _ ha2) b (List.mem_cons_of_mem _ hb2)
    · rw [hd2_old a (hInv.q_sub a (List.mem_cons_of_mem _ ha2)), hd2_new b hb2]
      have := hInv.q_band a (List.mem_cons_of_mem _ ha2) cur (List.mem_cons_self _ _)
      omega
    · rw [hd2_new a ha2, hd2_old b (hInv.q_sub b (List.mem_cons_of_mem _ hb2))]
      have := (List.pairwise_cons.1 hInv.q_sorted).1 b hb2
      omega
    · rw [hd2_new a ha2, hd2_new b hb2]
      omega
  · intro u hu huq n hn hok
    rcases (hmem2 u).1 hu with hu2 | hu2
    · by_cases huc : u = cur
      · subst huc
        by_cases hnk : n ∈ keysOf came
        · exact (hmem2 n).2 (Or.inl hnk)
        · exact (hmem2 n).2 (Or.inr (mem_freshNbrs.2 ⟨hn, hok, hnk⟩))
      · have hunq : u ∉ cur :: q := by
          intro hx
          rcases List.mem_cons.1 hx with rfl | hx
          · exact huc rfl
          · exact huq (List.mem_append_left _ hx)
        exact (hmem2 n).2 (Or.inl (hInv.closed u hu2 hunq n hn hok))
    · exact absurd (List.mem_append_right _ hu2) huq

/-- Run with enough fuel from an invariant state, the BFS loop returns a
predecessor map with the tree and exact-distance properties, having either
found the goal or exhausted the whole reachable region.  The fuel bound
decreases with every iteration because each dequeue either shrinks the queue or
strictly grows the (at most 397-element) key set. -/
lemma bfsAux_master (g : Grid) (start goal : Cell) :
    ∀ (fuel : ℕ) (q : List Cell) (came : Came) (d : Cell → ℕ),
      BfsInv g start d q came →
      q.length + 5 * (397 - (keysOf came).length) + 1 ≤ fuel →
      ∃ d2, BfsDone g start goal d2 (bfsAux g goal fuel q came) := by
  intro fuel
  induction fuel with
  | zero => intro q came d hInv hb; omega
  | succ fuel ih =>
    intro q came d hInv hb
    cases q with
    | nil =>
      refine ⟨d, ⟨hInv.lk_start, hInv.d_start, hInv.tree, hInv.nodup, hInv.reach,
        hInv.mind, Or.inr ?_⟩⟩
      exact fun u hu n hn hok => hInv.closed u hu (List.not_mem_nil u) n hn hok
    | cons cur q =>
      rw [bfsAux]
      by_cases hg : cur = goal
      · rw [if_pos hg]
        refine ⟨d, ⟨hInv.lk_start, hInv.d_start, hInv.tree, hInv.nodup, hInv.reach,
          hInv.mind, Or.inl ?_⟩⟩
        rw [← hg]
        exact hInv.q_sub cur (List.mem_cons_self _ _)
      · rw [if_neg hg]
        dsimp only
        rw [stepExpand_eq]
        dsimp only
        have hInv2 := bfsInv_step hInv
        apply ih _ _ _ hInv2
        have hcard2 := keys_card_le hInv2.nodup (keys_ok_of_tree hInv2.tree)
        rw [keysOf_append, keysOf_tagged, List.length_append] at hcard2 ⊢
        rw [List.length_append]
        simp only [List.length_cons] at hb
        omega

/-- The initial BFS state satisfies the invariant with all distances zero. -/
lemma bfsInv_init (g : Grid) (start : Cell) :
    BfsInv g start (fun _ => 0) [start] [(start, none)] := by
  refine ⟨?_, rfl, ?_, ?_, ?_, ?_, ?_, ?_, ?_, ?_, ?_⟩
  · rw [lookupCame_cons]
    exact if_pos rfl
  · intro k p hkp hks
    have he := List.mem_singleton.1 hkp
    exact absurd (congrArg Prod.fst he) hks
  · simp [keysOf]
  · intro k hk
    simp only [keysOf, List.map_cons, List.map_nil, List.mem_singleton] at hk
    subst hk
    exact ReachN.refl
  · intro k hk m hm
    omega
  · intro x hx
    simp only [List.mem_singleton] at hx
    subst hx
    simp [keysOf]
  · simp
  · simp
  · intro a ha b hb
    omega
  · intro u hu huq n hn hok
    simp only [keysOf, List.map_cons, List.map_nil, List.mem_singleton] at hu
    subst hu
    exact absurd (List.mem_singleton.2 rfl) huq

/-- Every key at tree distance `n` has `n+1` distinct ancestors (itself
included) among the keys, so tree distances are bounded by the key count. -/
lemma ancestor_chain {g : Grid} {start goal : Cell} {d : Cell → ℕ} {came : Came}
    (hD : BfsDone g start goal d came) :
    ∀ (n : ℕ), ∀ k ∈ keysOf came, d k = n →
      ∃ l : List Cell, l.Nodup ∧ (∀ c ∈ l, c ∈ keysOf came) ∧
        (∀ c ∈ l, d c ≤ n) ∧ l.length = n + 1 := by
  intro n
  induction n with
  | zero =>
    intro k hk hd0
    exact ⟨[k], List.nodup_singleton _, by simpa using hk,
      by simp [hd0], rfl⟩
  | succ n ih =>
    intro k hk hdk
    have hks : k ≠ start := by
      intro he
      rw [he, hD.d_start] at hdk
      omega
    obtain ⟨p, hp⟩ := exists_of_mem_keysOf hk
    obtain ⟨pc, hp1, hp2, hp3, hp4, hp5⟩ := hD.tree k p hp hks
    have hdpc : d pc = n := by omega
    obtain ⟨l, hl1, hl2, hl3, hl4⟩ := ih pc hp2 hdpc
    refine ⟨l ++ [k], ?_, ?_, ?_, ?_⟩
    · rw [List.nodup_append]
      refine ⟨hl1, List.nodup_singleton _, ?_⟩
      intro a ha hak
      rw [List.mem_singleton.1 hak] at ha
      have := hl3 k ha
      omega
    · intro c hc
      rcases List.mem_append.1 hc with hc | hc
      · exact hl2 c hc
      · rw [List.mem_singleton.1 hc]
        exact hk
    · intro c hc
      rcases List.mem_append.1 hc with hc | hc
      · have := hl3 c hc
        omega
      · rw [List.mem_singleton.1 hc]
        omega
    · rw [List.length_append, hl4]
      rfl

/-- Tree distances are strictly below the number of discovered keys. -/
lemma d_lt_keys {g : Grid} {start goal : Cell} {d : Cell → ℕ} {came : Came}
    (hD : BfsDone g start goal d came) :
    ∀ k ∈ keysOf came, d k + 1 ≤ (keysOf came).length := by
  intro k hk
  obtain ⟨l, hl1, hl2, _, hl4⟩ := ancestor_chain hD (d k) k hk rfl
  have h1 : l.toFinset.card = l.length := List.toFinset_card_of_nodup hl1
  have h2 : l.toFinset ⊆ (keysOf came).toFinset :=
    fun c hc => List.mem_toFinset.2 (hl2 c (List.mem_toFinset.1 hc))
  have h3 := Finset.card_le_card h2
  have h4 : (keysOf came).toFinset.card ≤ (keysOf came).length :=
    (keysOf came).toFinset_card_le
  omega

/-- The reconstruction loop: from a key at tree distance `n` with fuel at
least `n+2`, `backtrack` prepends the predecessor chain — a valid adjacency
path from `start` of length `n+1`. -/
lemma backtrack_spec {g : Grid} {start goal : Cell} {d : Cell → ℕ} {came : Came}
    (hD : BfsDone g start goal d came) :
    ∀ (n : ℕ), ∀ k ∈ keysOf came, d k = n → ∀ (f : ℕ), n + 2 ≤ f →
      ∀ (acc : List Cell),
      ∃ l, backtrack came f (some k) acc = l ++ acc ∧ l.length = n + 1 ∧
        l.head? = some start ∧ l.getLast? = some k ∧
        l.Chain' (fun a b => b ∈ nbrs a) ∧ (∀ c ∈ l, c = start ∨ okCell g c) := by
  intro n
  induction n with
  | zero =>
    intro k hk hd0 f hf acc
    have hks : k = start := by
      by_contra hne
      obtain ⟨p, hp⟩ := exists_of_mem_keysOf hk
      obtain ⟨pc, _, _, _, _, hp5⟩ := hD.tree k p hp hne
      omega
    subst hks
    obtain ⟨f1, rfl⟩ : ∃ f1, f = f1 + 1 := ⟨f - 1, by omega⟩
    rw [backtrack, hD.lk_start]
    rw [show (some (none : Option Cell)).join = none from rfl]
    obtain ⟨f2, rfl⟩ : ∃ f2, f1 = f2 + 1 := ⟨f1 - 1, by omega⟩
    rw [backtrack]
    refine ⟨[k], rfl, rfl, rfl, rfl, List.chain'_singleton _, ?_⟩
    intro c hc
    rw [List.mem_singleton.1 hc]
    exact Or.inl rfl
  | succ n ih =>
    intro k hk hdk f hf acc
    have hks : k ≠ start := by
      intro he
      rw [he, hD.d_start] at hdk
      omega
    obtain ⟨p, hp⟩ := exists_of_mem_keysOf hk
    obtain ⟨pc, hp1, hp2, hp3, hp4, hp5⟩ := hD.tree k p hp hks
    subst hp1
    have hlk : lookupCame came k = some (some pc) := lookupCame_eq_of_mem hD.nodup hp
    obtain ⟨f1, rfl⟩ : ∃ f1, f = f1 + 1 := ⟨f - 1, by omega⟩
    rw [backtrack, hlk]
    rw [show (some (some pc)).join = some pc from rfl]
    obtain ⟨l, hb1, hb2, hb3, hb4, hb5, hb6⟩ :=
      ih pc hp2 (by omega) f1 (by omega) (k :: acc)
    have hlne : l ≠ [] := by
      intro he
      rw [he] at hb2
      simp at hb2
    refine ⟨l ++ [k], ?_, ?_, ?_, List.getLast?_concat _, ?_, ?_⟩
    · rw [hb1, List.append_assoc]
      rfl
    · rw [List.length_append, hb2]
      rfl
    · rw [head?_append_of_ne_nil _ hlne]
      exact hb3
    · refine List.chain'_append.2 ⟨hb5, List.chain'_singleton _, ?_⟩
      intro a ha b hb
      have hac : a = pc := by
        rw [hb4] at ha
        exact (Option.mem_some_iff.1 ha).symm
      have hbc : k = b := by simpa using hb
      rw [hac, ← hbc]
      exact hp3
    · intro c hc
      rcases List.mem_append.1 hc with hc | hc
      · exact hb6 c hc
      · rw [List.mem_singleton.1 hc]
        exact Or.inr hp4

/-- C7: for every grid and in-bounds open start and goal, `bfs_path` returns a
path from start to goal through open cells with consecutive cells 4-adjacent,
of minimum length among all such paths; it returns `none` exactly when the goal
is unreachable; and when start = goal it returns exactly `[start]`. -/
theorem bfs_path_correct (g : Grid) (s gl : Cell) (hs : okCell g s)
    (hgl : okCell g gl) :
    (s = gl → bfs_path g s gl = some [s]) ∧
    (∀ p, bfs_path g s gl = some p →
      isValidPath g s gl p ∧ ∀ p2, isValidPath g s gl p2 → p.length ≤ p2.length) ∧
    (bfs_path g s gl = none ↔ ¬∃ p2, isValidPath g s gl p2) := by
  by_cases hsgl : s = gl
  · subst hsgl
    refine ⟨fun _ => by rw [bfs_path, if_pos rfl], ?_, ?_⟩
    · intro p hp
      rw [bfs_path, if_pos rfl] at hp
      obtain rfl := (Option.some.inj hp).symm
      refine ⟨⟨rfl, rfl, by simpa using hs, List.chain'_singleton _⟩, ?_⟩
      intro p2 hp2
      have hne : p2 ≠ [] := by
        intro he
        rw [he] at hp2
        exact absurd hp2.1 (by simp)
      have := List.length_pos.2 hne
      simpa using this
    · rw [bfs_path, if_pos rfl]
      constructor
      · intro h
        exact absurd h (by simp)
      · intro h
        exact absurd ⟨[s], rfl, rfl, by simpa using hs, List.chain'_singleton _⟩ h
  · have hb : [s].length + 5 * (397 - (keysOf [(s, none)]).length) + 1 ≤ bfsFuel := by
      simp [keysOf, bfsFuel]
    obtain ⟨d2, hD⟩ :=
      bfsAux_master g s gl bfsFuel [s] [(s, none)] (fun _ => 0) (bfsInv_init g s) hb
    rw [bfs_path, if_neg hsgl]
    dsimp only
    set came := bfsAux g gl bfsFuel [s] [(s, none)] with hcame
    have hcomplete : (∃ m, ReachN g s m gl) → gl ∈ keysOf came := by
      rintro ⟨m, hm⟩
      rcases hD.done with hdone | hclosed
      · exact hdone
      · have haux : ∀ (m2 : ℕ) (c : Cell), ReachN g s m2 c → c ∈ keysOf came := by
          intro m2 c hr
          induction hr with
          | refl => exact mem_keysOf_of_mem (lookupCame_mem hD.lk_start)
          | @step n v w hr2 hn hok ih => exact hclosed v ih w hn hok
        exact haux m gl hm
    by_cases hfound : (lookupCame came gl).isSome = true
    · rw [if_pos hfound]
      have hglk : gl ∈ keysOf came := lookupCame_isSome_iff.1 hfound
      have hdb : d2 gl + 1 ≤ (keysOf came).length := d_lt_keys hD gl hglk
      have hkl : (keysOf came).length = came.length := List.length_map _ _
      obtain ⟨l, hb1, hb2, hb3, hb4, hb5, hb6⟩ :=
        backtrack_spec hD (d2 gl) gl hglk rfl (came.length + 1) (by omega) []
      rw [List.append_nil] at hb1
      have hvalid : isValidPath g s gl l := by
        refine ⟨hb3, hb4, ?_, hb5⟩
        intro c hc
        rcases hb6 c hc with rfl | hok
        · exact hs
        · exact hok
      refine ⟨fun h => absurd h hsgl, ?_, ?_⟩
      · intro p hp
        obtain rfl : l = p := by rw [← hb1]; exact Option.some.inj hp
        refine ⟨hvalid, ?_⟩
        intro p2 hp2
        have hp2ne : p2 ≠ [] := by
          intro he
          rw [he] at hp2
          exact absurd hp2.1 (by simp)
        have hr2 := reach_of_path g s p2 gl hp2.1 hp2.2.1 hp2.2.2.2
          (fun c hc => hp2.2.2.1 c (List.mem_of_mem_tail hc))
        have hmin := hD.mind gl hglk _ hr2
        have hp2pos := List.length_pos.2 hp2ne
        omega
      · constructor
        · intro h
          exact absurd h (by simp)
        · intro h
          exact absurd ⟨l, hvalid⟩ h
    · rw [if_neg hfound]
      have hglk : gl ∉ keysOf came := fun h => hfound (lookupCame_isSome_iff.2 h)
      refine ⟨fun h => absurd h hsgl, ?_, ?_⟩
      · intro p hp
        exact absurd hp (by simp)
      · constructor
        · rintro _ ⟨p2, hp2⟩
          have hr := reach_of_path g s p2 gl hp2.1 hp2.2.1 hp2.2.2.2
            (fun c hc => hp2.2.2.1 c (List.mem_of_mem_tail hc))
          exact hglk (hcomplete ⟨_, hr⟩)
        · intro _
          rfl

/-- Witness for C7 on a two-cell corridor: both endpoints are in-bounds open
cells and the returned path is valid and minimal. -/
theorem bfs_path_correct_witness :
    okCell c7grid ((1 : ℤ), (1 : ℤ)) ∧ okCell c7grid ((2 : ℤ), (1 : ℤ)) ∧
    (∀ p, bfs_path c7grid ((1 : ℤ), (1 : ℤ)) ((2 : ℤ), (1 : ℤ)) = some p →
      isValidPath c7grid ((1 : ℤ), (1 : ℤ)) ((2 : ℤ), (1 : ℤ)) p ∧
      ∀ p2, isValidPath c7grid ((1 : ℤ), (1 : ℤ)) ((2 : ℤ), (1 : ℤ)) p2 →
        p.length ≤ p2.length) :=
  ⟨by decide, by decide,
    (bfs_path_correct c7grid ((1 : ℤ), (1 : ℤ)) ((2 : ℤ), (1 : ℤ))
      (by decide) (by decide)).2.1⟩

end Maze
